import Mathlib

/-!
Verification of the taskcluster-lib-loader component loader
(`src/lib/loader.js`).

The development shallowly embeds the loader: component-definition
validation (`validateComponent`), reference checking, the topological
cycle check performed at construction time, the reserved `graphviz`
diagnostic component, and the per-call memoized recursive resolution
(`load`).  JavaScript promises settle deterministically here, so the
session is modelled as a state-passing recursion threading the
memoization table (`loaded`) and a log of setup invocations; a
synchronous throw and fuel exhaustion are distinguished from a settled
(possibly rejected) deferred value.
-/

namespace TcLoader

/-- Values produced by setup functions and supplied through `options`.
Opaque to the loader; two simple shapes suffice for the development. -/
inductive Value where
  | str (s : String)
  | num (n : Nat)
deriving DecidableEq

/-- A context object: the mapping from required component names to their
resolved values that is passed to a setup function (loader.js:305-309). -/
abbrev Ctx := List (String × Value)

/-- The settled state of a component's promise: fulfilled with a value or
rejected with an error (setup throw / rejection reason). -/
abbrev Res := Except String Value

/-- The per-session memoization table `loaded` (loader.js:292). -/
abbrev Memo := List (String × Res)

/-- Log of setup invocations: component name and the context it received. -/
abbrev Log := List (String × Ctx)

/-- First-match association-list lookup, modelling JavaScript property
lookup on objects represented as key/value lists (newest binding first). -/
def alookup {κ α : Type} [DecidableEq κ] : List (κ × α) → κ → Option α
  | [], _ => none
  | (k, v) :: t, x => if k = x then some v else alookup t x

/-- One entry of a `requires` array: a string, or some other value
(loader.js:37-39 checks every entry with `typeof entry === 'string'`). -/
inductive ReqEntry where
  | str (s : String)
  | nonStr

/-- The `requires` property of a component definition as found by
`validateComponent` (loader.js:32-42): absent (or falsy, which
`if (def.requires)` skips), a truthy non-array value, or an array. -/
inductive ReqField where
  | absent
  | nonArrayTruthy
  | array (es : List ReqEntry)

/-- A raw component definition as supplied by the caller, before
validation (loader.js:21-43).  `obj setupF req` is an object whose
`setup` property is a callable (`some f`) or missing / not callable
(`none`); `nonObject b` is a non-object, non-null, non-undefined value
with truthiness `b`. -/
inductive RawDef where
  | jsNull
  | jsUndefined
  | nonObject (truthy : Bool)
  | obj (setupF : Option (Ctx → Res)) (req : ReqField)

/-- Errors raised while constructing the loader (loader.js:177-256).
`typeErrorNullDef` models the TypeError raised by `def.setup` when `def`
is `null` or `undefined` (such a value passes the check on line 24
because `typeof null === 'object'` and the condition exempts
`undefined`, and then line 28 dereferences it). -/
inductive ConstructErr where
  | invalidComponent
  | typeErrorNullDef
  | undefinedComponent (dep : String)
  | cyclicDependency
  | reservedName
  | virtualNameCollision
deriving DecidableEq

instance exceptDecEq {ε α : Type} [DecidableEq ε] [DecidableEq α] :
    DecidableEq (Except ε α) := fun a b =>
  match a, b with
  | .ok x, .ok y =>
    if h : x = y then isTrue (by rw [h]) else isFalse (fun he => h (Except.ok.inj he))
  | .error x, .error y =>
    if h : x = y then isTrue (by rw [h]) else isFalse (fun he => h (Except.error.inj he))
  | .ok _, .error _ => isFalse (fun he => Except.noConfusion he)
  | .error _, .ok _ => isFalse (fun he => Except.noConfusion he)

/-- `validateComponent(def, name)` (loader.js:21-43).  The line-24 check
`typeof def !== 'object' && def !== null && def !== undefined` throws
only for non-object values other than `null`/`undefined`; `null` and
`undefined` fall through and line 28 (`def.setup`) raises a TypeError. -/
def validateComponent (d : RawDef) (_name : String) : Except ConstructErr Unit :=
  match d with
  | .jsNull => .error .typeErrorNullDef
  | .jsUndefined => .error .typeErrorNullDef
  | .nonObject _ => .error .invalidComponent
  | .obj setupF req =>
    if setupF.isNone then .error .invalidComponent
    else
      match req with
      | .absent => .ok ()
      | .nonArrayTruthy => .error .invalidComponent
      | .array es =>
        if es.all (fun e => match e with | .str _ => true | .nonStr => false) then .ok ()
        else .error .invalidComponent

/-- The dependency list used by the rest of construction:
`def.requires || []` (loader.js:193,219,303), extracting the strings of
the requires array (after validation every entry is a string). -/
def rawRequires (d : RawDef) : List String :=
  match d with
  | .obj _ (.array es) => es.filterMap (fun e => match e with | .str s => some s | .nonStr => none)
  | _ => []

/-- JavaScript truthiness of a directory lookup, as tested by
`!componentDirectory[dep]` (loader.js:196) and
`componentDirectory.graphviz` (loader.js:249). -/
def truthyAtB (dir : List (String × RawDef)) (n : String) : Bool :=
  match alookup dir n with
  | none => false
  | some .jsNull => false
  | some .jsUndefined => false
  | some (.nonObject b) => b
  | some (.obj _ _) => true

/-- The reference check for one entry's requires list (loader.js:193-199):
a dependency whose directory lookup is falsy and which is not listed in
`virtualComponents` raises `Cannot require undefined component`. -/
def checkDeps (dir : List (String × RawDef)) (virtuals : List String) :
    List String → Except ConstructErr Unit
  | [] => .ok ()
  | d :: ds =>
    if !truthyAtB dir d && !virtuals.contains d then .error (.undefinedComponent d)
    else checkDeps dir virtuals ds

/-- The per-entry validation loop (loader.js:186-214): validate each
definition, then check its requires list for undefined components. -/
def checkEntries (dir : List (String × RawDef)) (virtuals : List String) :
    List (String × RawDef) → Except ConstructErr Unit
  | [] => .ok ()
  | (n, d) :: t =>
    match validateComponent d n with
    | .error e => .error e
    | .ok () =>
      match checkDeps dir virtuals (rawRequires d) with
      | .error e => .error e
      | .ok () => checkEntries dir virtuals t

/-- The dependency list fed to the topological sort for a node:
directory entries contribute `def.requires || []` (loader.js:219),
virtual components contribute `[]` (loader.js:229). -/
def kahnDeps (dir : List (String × RawDef)) (n : String) : List String :=
  match alookup dir n with
  | some d => rawRequires d
  | none => []

/-- One edge of the dependency graph built at construction time
(loader.js:216-230): from a component to each of its requirements. -/
def DirEdge (dir : List (String × RawDef)) (a b : String) : Prop :=
  b ∈ kahnDeps dir a

/-- The dependency graph contains a cycle: some node reaches itself by a
nonempty chain of `requires` edges. -/
def HasCycle (dir : List (String × RawDef)) : Prop :=
  ∃ n, Relation.TransGen (DirEdge dir) n n

/-- Kahn-style topological sort, modelling `tsort.sort()`
(loader.js:246): repeatedly emit every pending node all of whose
dependencies are no longer pending; if no node can be emitted while some
are pending, the graph has a cycle and sorting fails. -/
def kahnAux (deps : String → List String) : Nat → List String → List String → Option (List String)
  | _, em, [] => some em.reverse
  | 0, _, _ :: _ => none
  | fuel + 1, em, p@(_ :: _) =>
    let isReady := fun n => (deps n).all (fun d => !p.contains d)
    let ready := p.filter isReady
    if ready.isEmpty then none
    else kahnAux deps fuel (ready.reverse ++ em) (p.filter (fun n => !isReady n))

/-- A validated component as used by the load sessions: a setup function
and the normalized requires list. -/
structure SDef where
  setup : Ctx → Res
  requires : List String

/-- Extraction of the validated directory: after `checkEntries`
succeeds, every definition is an object with a callable setup. -/
def extractDir (dir : List (String × RawDef)) : List (String × SDef) :=
  dir.filterMap (fun p =>
    match p.2 with
    | .obj (some f) _ => some (p.1, ⟨f, rawRequires p.2⟩)
    | _ => none)

/-- The graph rendering of `renderGraph` (loader.js:49-105), line by
line over the topologically sorted components.  A component in the
sorted list that is missing from the directory (a virtual component)
makes line 67 dereference `undefined.requires`: a TypeError, surfaced as
a rejection because the setup runs inside a promise chain. -/
def renderLines (sdir : List (String × SDef)) : List String → Except String (List String)
  | [] => .ok []
  | c :: cs =>
    match alookup sdir c with
    | none => .error "TypeError"
    | some cd =>
      match renderLines sdir cs with
      | .error e => .error e
      | .ok rest =>
        .ok ((("  \"" ++ c ++ "\"") ::
          cd.requires.map (fun d => "  \"" ++ c ++ "\" -> \"" ++ d ++ "\" [dir=back]")) ++ rest)

/-- `renderGraph(componentDirectory, sortedComponents)` (loader.js:49-105). -/
def renderGraph (sdir : List (String × SDef)) (sorted : List String) : Except String String :=
  match renderLines sdir sorted with
  | .error e => .error e
  | .ok ls =>
    .ok (String.intercalate "\n"
      (["// This graph shows all dependencies for this loader.",
        "// You might find http://www.webgraphviz.com/ useful!",
        "",
        "digraph G \x7b"] ++ ls ++ ["\x7d"]))

/-- The loader produced by successful construction: the cloned validated
directory with the injected `graphviz` entry (loader.js:252-256), the
declared virtual component names, and the computed topological order. -/
structure Loader where
  sessionDir : List (String × SDef)
  virtuals : List String
  sorted : List String

/-- Loader construction (loader.js:177-256), in source order: the
disjointness assertion (line 182), the per-entry validation and
reference check (lines 186-214), the topological sort / cycle check
(lines 216-246), the reserved-name check (lines 249-251), and finally
the injection of the `graphviz` component.  The `graphviz` setup renders
from the validated directory; the injected entry itself is never in the
sorted list, so rendering does not consult it. -/
def loaderConstruct (dir : List (String × RawDef)) (virtuals : List String) :
    Except ConstructErr Loader :=
  if (dir.map Prod.fst).all (fun k => !virtuals.contains k) then
    match checkEntries dir virtuals dir with
    | .error e => .error e
    | .ok () =>
      match kahnAux (kahnDeps dir) (dir.map Prod.fst ++ virtuals).length []
          (dir.map Prod.fst ++ virtuals) with
      | none => .error .cyclicDependency
      | some sorted =>
        if truthyAtB dir "graphviz" || virtuals.contains "graphviz" then
          .error .reservedName
        else
          .ok { sessionDir := extractDir dir ++
                  [("graphviz",
                    ⟨fun _ =>
                      match renderGraph (extractDir dir) sorted with
                      | .ok s => .ok (.str s)
                      | .error e => .error e, []⟩)],
                virtuals := virtuals,
                sorted := sorted }
  else .error .virtualNameCollision

/-- Errors that abort a resolution without producing a settled deferred
value: the synchronous TypeError of `def.requires` when the target has
no definition and no memoized entry (loader.js:300-303), and exhaustion
of the recursion fuel (which a validated, acyclic directory never hits). -/
inductive RErr where
  | typeErrorUndefined
  | fuelOut
deriving DecidableEq

/-- `Promise.all` over the settled dependency results (loader.js:304):
fulfilled with the list of values when all dependencies are fulfilled,
rejected with a dependency's rejection reason otherwise. -/
def collectDeps : List Res → Except String (List Value)
  | [] => .ok []
  | .error e :: _ => .error e
  | .ok v :: t =>
    match collectDeps t with
    | .error e => .error e
    | .ok vs => .ok (v :: vs)

/-- Resolution of a list of dependencies in declared order
(`requires.map(load)`, loader.js:304), threading the session state. -/
def resolveMany (g : Memo → Log → String → Except RErr (Memo × Log × Res)) :
    Memo → Log → List String → Except RErr (Memo × Log × List Res)
  | memo, log, [] => .ok (memo, log, [])
  | memo, log, d :: ds =>
    match g memo log d with
    | .error e => .error e
    | .ok (m1, l1, r) =>
      match resolveMany g m1 l1 ds with
      | .error e => .error e
      | .ok (m2, l2, rs) => .ok (m2, l2, r :: rs)

/-- The recursive `load` of a session (loader.js:298-313).  A memoized
entry is returned as is; otherwise the definition is looked up (a
missing definition raises the synchronous TypeError of line 303), the
requirements are resolved, and the component's promise is recorded in
the memoization table: the setup function runs on the assembled context
when every dependency is fulfilled, and the entry is the propagated
rejection otherwise.  The fuel bounds the construction nesting depth. -/
def resolve (dir : List (String × SDef)) : Nat → Memo → Log → String → Except RErr (Memo × Log × Res)
  | 0, memo, log, t =>
    match alookup memo t with
    | some r => .ok (memo, log, r)
    | none => .error .fuelOut
  | fuel + 1, memo, log, t =>
    match alookup memo t with
    | some r => .ok (memo, log, r)
    | none =>
      match alookup dir t with
      | none => .error .typeErrorUndefined
      | some cd =>
        match resolveMany (resolve dir fuel) memo log cd.requires with
        | .error e => .error e
        | .ok (m1, l1, rs) =>
          match collectDeps rs with
          | .error e => .ok ((t, Except.error e) :: m1, l1, .error e)
          | .ok vals =>
            let ctx := cd.requires.zip vals
            let r := cd.setup ctx
            .ok ((t, r) :: m1, l1 ++ [(t, ctx)], r)

/-- Outcome of one `load(target, options)` call: a settled deferred
value, the `MissingVirtualBinding` assertion failure (loader.js:270-274),
the synchronous TypeError on an unknown target, or fuel exhaustion. -/
inductive Outcome where
  | settled (r : Res)
  | missingVirtual
  | typeErrorUndefined
  | outOfFuel

/-- One invocation of the returned load function (loader.js:258-316):
clone the options (modelled by value semantics), assert every virtual
component is bound in `options`, seed the memoization table with every
options entry as an already-resolved value (loader.js:292-295), and
resolve the target.  Returns the setup-invocation log and the outcome. -/
def loadCall (ldr : Loader) (fuel : Nat) (target : String)
    (options : List (String × Value)) : Log × Outcome :=
  if ldr.virtuals.all (fun v => (alookup options v).isSome) then
    match resolve ldr.sessionDir fuel (options.map (fun p => (p.1, Except.ok p.2))) [] target with
    | .ok (_, log, r) => (log, .settled r)
    | .error .typeErrorUndefined => ([], .typeErrorUndefined)
    | .error .fuelOut => ([], .outOfFuel)
  else ([], .missingVirtual)

/-- The session-level dependency edge: from a component of the validated
directory to each name in its requires list. -/
def SEdge (sdir : List (String × SDef)) (a b : String) : Prop :=
  ∃ cd, alookup sdir a = some cd ∧ b ∈ cd.requires

/-- `a` transitively requires `b` (reflexively). -/
def Reaches (sdir : List (String × SDef)) (a b : String) : Prop :=
  Relation.ReflTransGen (SEdge sdir) a b

/-- A ranking witnessing acyclicity of a validated directory: every edge
strictly decreases the rank. -/
def Ranked (sdir : List (String × SDef)) (rank : String → Nat) : Prop :=
  ∀ p ∈ sdir, ∀ b ∈ p.2.requires, rank b < rank p.1

/-- Failure-propagation invariant of the memoization table when `d0` is
the unique failing component with error `e`: every memoized entry that
transitively requires `d0` is the rejection `e`, every other entry is
fulfilled. -/
def TaintInv (sdir : List (String × SDef)) (d0 e : String) (memo : Memo) : Prop :=
  ∀ k rk, alookup memo k = some rk →
    (Reaches sdir k d0 → rk = .error e) ∧ (¬Reaches sdir k d0 → ∃ v, rk = .ok v)

/-! Concrete directories used by the spec's scenario-level properties. -/

/-- The diamond directory of the spec: `A requires [B, C]`,
`B requires [D]`, `C requires [D]`. -/
def diamondRaw : List (String × RawDef) :=
  [("A", .obj (some (fun _ => .ok (.num 0))) (.array [.str "B", .str "C"])),
   ("B", .obj (some (fun _ => .ok (.num 1))) (.array [.str "D"])),
   ("C", .obj (some (fun _ => .ok (.num 2))) (.array [.str "D"])),
   ("D", .obj (some (fun _ => .ok (.num 42))) .absent)]

/-- The loader constructed from the diamond directory. -/
def diamondLoader : Loader :=
  (loaderConstruct diamondRaw []).toOption.getD ⟨[], [], []⟩

/-- A rank function witnessing acyclicity of the diamond directory. -/
def diamondRank (n : String) : Nat :=
  if n = "A" then 3 else if n = "B" then 2 else if n = "C" then 2 else 0

/-- The virtual-binding example of the spec: `config` declared virtual
and `app requires [config]`. -/
def appRaw : List (String × RawDef) :=
  [("app", .obj (some (fun _ => .ok (.num 1))) (.array [.str "config"]))]

/-- The loader constructed from `appRaw` with `config` virtual. -/
def appLoader : Loader :=
  (loaderConstruct appRaw ["config"]).toOption.getD ⟨[], [], []⟩

/-- A directory that both defines the reserved `graphviz` name and
contains a cycle (`a requires [a]`). -/
def gvCycleRaw : List (String × RawDef) :=
  [("graphviz", .obj (some (fun _ => .ok (.num 0))) .absent),
   ("a", .obj (some (fun _ => .ok (.num 0))) (.array [.str "a"]))]

/-- The override example of the spec: non-virtual `db` with its own
setup (which must never run when `db` is supplied in options). -/
def ovrSession : List (String × SDef) :=
  [("target", ⟨fun _ => .ok (.num 0), ["db"]⟩),
   ("db", ⟨fun _ => .error "db setup must not run", []⟩)]

/-- Failure-propagation example: `A requires [B, E]`, `B requires [D]`,
`D`'s setup always fails, `E` is unrelated to `D`. -/
def failSession : List (String × SDef) :=
  [("A", ⟨fun _ => .ok (.num 0), ["B", "E"]⟩),
   ("B", ⟨fun _ => .ok (.num 1), ["D"]⟩),
   ("D", ⟨fun _ => .error "boom", []⟩),
   ("E", ⟨fun _ => .ok (.num 5), []⟩)]

/-! A small heap model for the frame property: the caller's directory
and options objects are never written.  Objects are field lists mapping
names to opaque references; the heap maps references to objects. -/

/-- A JavaScript object at the heap level: fields to opaque references. -/
abbrev HObj := List (String × Nat)

/-- A heap: references to objects (first binding wins). -/
abbrev Heap := List (Nat × HObj)

/-- Heap read. -/
def hGet (h : Heap) (r : Nat) : Option HObj := alookup h r

/-- Heap write (shadowing). -/
def hSet (h : Heap) (r : Nat) (o : HObj) : Heap := (r, o) :: h

/-- A reference unused by the heap. -/
def freshRef (h : Heap) : Nat := (h.map Prod.fst).foldr (fun a b => max a b) 0 + 1

/-- Allocate a new object. -/
def hAlloc (h : Heap) (o : HObj) : Heap × Nat := ((freshRef h, o) :: h, freshRef h)

/-- `_.clone`: shallow copy into a fresh object (loader.js:183,261). -/
def hClone (h : Heap) (r : Nat) : Heap × Nat := hAlloc h ((hGet h r).getD [])

/-- Property assignment on an object value. -/
def objSetField (o : HObj) (f : String) (x : Nat) : HObj := (f, x) :: o

/-- The object writes performed by loader construction (loader.js:183,
252): clone the caller's directory, then add the `graphviz` field to
the clone.  Returns the final heap and the clone's reference. -/
def constructHeapOps (h : Heap) (dirRef gvRef : Nat) : Heap × Nat :=
  let p := hClone h dirRef
  (hSet p.1 p.2 (objSetField ((hGet p.1 p.2).getD []) "graphviz" gvRef), p.2)

/-- The object writes performed by one load call (loader.js:261,
292-295, 304): clone the caller's options, allocate the fresh `loaded`
table seeded from the clone, then perform the session's memoization
writes on the `loaded` table only.  Returns the final heap and the
`loaded` reference. -/
def loadHeapOps (h : Heap) (optRef : Nat) (writes : List (String × Nat)) : Heap × Nat :=
  let p := hClone h optRef
  let q := hAlloc p.1 ((hGet p.1 p.2).getD [])
  (writes.foldl (fun hh w => hSet hh q.2 (objSetField ((hGet hh q.2).getD []) w.1 w.2)) q.1,
   q.2)

/-! ## Basic lemmas about association-list lookup -/

theorem alookup_mem {κ α : Type} [DecidableEq κ] {l : List (κ × α)} {k : κ} {v : α}
    (h : alookup l k = some v) : (k, v) ∈ l := by
  induction l with
  | nil => simp [alookup] at h
  | cons p t ih =>
    obtain ⟨a, b⟩ := p
    simp only [alookup] at h
    by_cases hak : a = k
    · subst hak
      rw [if_pos rfl] at h
      obtain rfl : b = v := Option.some.inj h
      exact List.mem_cons_self _ _
    · rw [if_neg hak] at h
      exact List.mem_cons_of_mem _ (ih h)

theorem alookup_eq_none_iff {κ α : Type} [DecidableEq κ] {l : List (κ × α)} {k : κ} :
    alookup l k = none ↔ k ∉ l.map Prod.fst := by
  induction l with
  | nil => simp [alookup]
  | cons p t ih =>
    obtain ⟨a, b⟩ := p
    by_cases hak : a = k
    · subst hak
      simp [alookup]
    · have hka : ¬k = a := fun h => hak h.symm
      simp [alookup, hak, hka, ih]

theorem alookup_append_some {κ α : Type} [DecidableEq κ] {l1 : List (κ × α)}
    (l2 : List (κ × α)) {k : κ} {v : α} (h : alookup l1 k = some v) :
    alookup (l1 ++ l2) k = some v := by
  induction l1 with
  | nil => simp [alookup] at h
  | cons p t ih =>
    obtain ⟨a, b⟩ := p
    simp only [alookup, List.cons_append] at h ⊢
    by_cases hak : a = k
    · simpa [hak] using h
    · rw [if_neg hak] at h ⊢
      exact ih h

theorem alookup_append_none {κ α : Type} [DecidableEq κ] {l1 : List (κ × α)}
    (l2 : List (κ × α)) {k : κ} (h : alookup l1 k = none) :
    alookup (l1 ++ l2) k = alookup l2 k := by
  induction l1 with
  | nil => simp
  | cons p t ih =>
    obtain ⟨a, b⟩ := p
    simp only [alookup, List.cons_append] at h ⊢
    by_cases hak : a = k
    · simp [hak] at h
    · rw [if_neg hak] at h ⊢
      exact ih h

theorem alookup_map_val {κ α β : Type} [DecidableEq κ] (f : α → β) (l : List (κ × α)) (k : κ) :
    alookup (l.map (fun p => (p.1, f p.2))) k = (alookup l k).map f := by
  induction l with
  | nil => simp [alookup]
  | cons p t ih =>
    obtain ⟨a, b⟩ := p
    by_cases hak : a = k
    · simp [alookup, hak]
    · simp [alookup, hak, ih]

theorem extractDir_key_sub {dir : List (String × RawDef)} {k : String}
    (h : k ∈ (extractDir dir).map Prod.fst) : k ∈ dir.map Prod.fst := by
  simp only [extractDir, List.mem_map, List.mem_filterMap] at h
  obtain ⟨q, ⟨p, hp, hq⟩, hk⟩ := h
  cases hd : p.2 with
  | obj sf rf =>
    cases sf with
    | some f =>
      rw [hd] at hq
      simp only [Option.some.injEq] at hq
      subst hq
      exact List.mem_map.2 ⟨p, hp, hk⟩
    | none => rw [hd] at hq; exact Option.noConfusion hq
  | jsNull => rw [hd] at hq; exact Option.noConfusion hq
  | jsUndefined => rw [hd] at hq; exact Option.noConfusion hq
  | nonObject b => rw [hd] at hq; exact Option.noConfusion hq

/-! ## Lemmas about construction-time validation -/

theorem checkDeps_only_undefined {dir : List (String × RawDef)} {virtuals : List String}
    {reqs : List String} {e : ConstructErr} (h : checkDeps dir virtuals reqs = .error e) :
    ∃ d, e = .undefinedComponent d := by
  induction reqs with
  | nil => simp [checkDeps] at h
  | cons d ds ih =>
    simp only [checkDeps] at h
    by_cases hc : (!truthyAtB dir d && !virtuals.contains d) = true
    · rw [if_pos hc] at h
      exact ⟨d, (Except.error.inj h).symm⟩
    · rw [if_neg hc] at h
      exact ih h

theorem checkDeps_err {dir : List (String × RawDef)} {virtuals : List String}
    {reqs : List String} {d : String} (hd : d ∈ reqs)
    (ht : truthyAtB dir d = false) (hv : d ∉ virtuals) :
    ∃ d', checkDeps dir virtuals reqs = .error (.undefinedComponent d') := by
  induction reqs with
  | nil => cases hd
  | cons a as ih =>
    simp only [checkDeps]
    by_cases hc : (!truthyAtB dir a && !virtuals.contains a) = true
    · rw [if_pos hc]
      exact ⟨a, rfl⟩
    · rw [if_neg hc]
      rcases List.mem_cons.1 hd with rfl | hmem
      · exfalso
        apply hc
        simp [ht, hv]
      · exact ih hmem

theorem checkDeps_ok {dir : List (String × RawDef)} {virtuals : List String}
    {reqs : List String}
    (h : ∀ d ∈ reqs, truthyAtB dir d = true ∨ d ∈ virtuals) :
    checkDeps dir virtuals reqs = .ok () := by
  induction reqs with
  | nil => rfl
  | cons a as ih =>
    simp only [checkDeps]
    have ha := h a (List.mem_cons_self _ _)
    have hc : (!truthyAtB dir a && !virtuals.contains a) = false := by
      rcases ha with ht | hv
      · simp [ht]
      · simp [hv]
    rw [if_neg (by rw [hc]; simp)]
    exact ih (fun d hd => h d (List.mem_cons_of_mem _ hd))

theorem checkEntries_ok {dir : List (String × RawDef)} {virtuals : List String}
    {sub : List (String × RawDef)}
    (hv : ∀ p ∈ sub, validateComponent p.2 p.1 = .ok ())
    (hr : ∀ p ∈ sub, ∀ d ∈ rawRequires p.2, truthyAtB dir d = true ∨ d ∈ virtuals) :
    checkEntries dir virtuals sub = .ok () := by
  induction sub with
  | nil => rfl
  | cons p t ih =>
    obtain ⟨n, d⟩ := p
    simp only [checkEntries]
    rw [hv (n, d) (List.mem_cons_self _ _)]
    rw [checkDeps_ok (hr (n, d) (List.mem_cons_self _ _))]
    exact ih (fun q hq => hv q (List.mem_cons_of_mem _ hq))
      (fun q hq => hr q (List.mem_cons_of_mem _ hq))

theorem checkEntries_undef {dir : List (String × RawDef)} {virtuals : List String}
    {sub : List (String × RawDef)}
    (hv : ∀ p ∈ sub, validateComponent p.2 p.1 = .ok ())
    (hbad : ∃ p ∈ sub, ∃ d ∈ rawRequires p.2, truthyAtB dir d = false ∧ d ∉ virtuals) :
    ∃ d', checkEntries dir virtuals sub = .error (.undefinedComponent d') := by
  induction sub with
  | nil => obtain ⟨p, hp, _⟩ := hbad; cases hp
  | cons p t ih =>
    obtain ⟨n, d⟩ := p
    simp only [checkEntries]
    rw [hv (n, d) (List.mem_cons_self _ _)]
    cases hcd : checkDeps dir virtuals (rawRequires d) with
    | error e =>
      obtain ⟨d', rfl⟩ := checkDeps_only_undefined hcd
      exact ⟨d', rfl⟩
    | ok u =>
      cases u
      obtain ⟨q, hq, dd, hdd, ht, hv2⟩ := hbad
      rcases List.mem_cons.1 hq with rfl | hmem
      · obtain ⟨d', hd'⟩ := checkDeps_err hdd ht hv2
        rw [hcd] at hd'
        exact Except.noConfusion hd'
      · exact ih (fun q hq => hv q (List.mem_cons_of_mem _ hq)) ⟨q, hmem, dd, hdd, ht, hv2⟩

theorem validate_ok_shape {d : RawDef} {n : String}
    (h : validateComponent d n = .ok ()) : ∃ f r, d = .obj (some f) r := by
  cases d with
  | jsNull => exact Except.noConfusion h
  | jsUndefined => exact Except.noConfusion h
  | nonObject b => exact Except.noConfusion h
  | obj sf r =>
    cases sf with
    | none => simp [validateComponent] at h
    | some f => exact ⟨f, r, rfl⟩

theorem truthy_of_key {dir : List (String × RawDef)} {k : String}
    (hv : ∀ p ∈ dir, validateComponent p.2 p.1 = .ok ())
    (hk : k ∈ dir.map Prod.fst) : truthyAtB dir k = true := by
  cases hlk : alookup dir k with
  | none => exact absurd (alookup_eq_none_iff.1 hlk) (by simp [hk])
  | some d =>
    obtain ⟨f, r, rfl⟩ := validate_ok_shape (hv (k, d) (alookup_mem hlk))
    simp [truthyAtB, hlk]

/-! ## The topological sort: success is equivalent to acyclicity -/

theorem length_filter_lt {α : Type} {q : α → Bool} :
    ∀ {l : List α} {y : α}, y ∈ l → q y = false → (l.filter q).length < l.length := by
  intro l
  induction l with
  | nil => intro y hy _; cases hy
  | cons a t ih =>
    intro y hy hqy
    cases hqa : q a with
    | false =>
      rw [List.filter_cons_of_neg (by simp [hqa])]
      exact Nat.lt_succ_of_le (List.length_filter_le _ _)
    | true =>
      have hyt : y ∈ t := by
        rcases List.mem_cons.1 hy with rfl | hmem
        · rw [hqa] at hqy; exact Bool.noConfusion hqy
        · exact hmem
      rw [List.filter_cons_of_pos (by simp [hqa])]
      simpa using Nat.succ_lt_succ (ih hyt hqy)

theorem kahnAux_rank {deps : String → List String} :
    ∀ (fuel : Nat) (em p L : List String),
      kahnAux deps fuel em p = some L →
      ∃ rank : String → Nat, ∀ a ∈ p, ∀ b ∈ deps a, b ∈ p → rank b < rank a := by
  intro fuel
  induction fuel with
  | zero =>
    intro em p L h
    cases p with
    | nil => exact ⟨fun _ => 0, by simp⟩
    | cons x xs => exact Option.noConfusion h
  | succ f ih =>
    intro em p L h
    cases p with
    | nil => exact ⟨fun _ => 0, by simp⟩
    | cons x xs =>
      simp only [kahnAux] at h
      by_cases hre :
          ((x :: xs).filter (fun n => (deps n).all (fun d => !(x :: xs).contains d))).isEmpty
      · rw [if_pos hre] at h; exact Option.noConfusion h
      · rw [if_neg hre] at h
        obtain ⟨rank', hrk⟩ := ih _ _ _ h
        refine ⟨fun c => if (deps c).all (fun d => !(x :: xs).contains d) then 0
          else rank' c + 1, ?_⟩
        intro a ha b hb hbp
        dsimp only
        by_cases hca : ((deps a).all (fun d => !(x :: xs).contains d)) = true
        · exfalso
          have := List.all_eq_true.1 hca b hb
          simp only [Bool.not_eq_true'] at this
          exact absurd hbp (by simpa using this)
        · have hca' : ((deps a).all (fun d => !(x :: xs).contains d)) = false := by
            cases hx : ((deps a).all (fun d => !(x :: xs).contains d)) with
            | true => exact absurd hx hca
            | false => rfl
          have har : a ∈ (x :: xs).filter
              (fun n => !(deps n).all (fun d => !(x :: xs).contains d)) :=
            List.mem_filter.2 ⟨ha, by rw [hca']; rfl⟩
          by_cases hcb : ((deps b).all (fun d => !(x :: xs).contains d)) = true
          · rw [if_pos hcb, if_neg hca]
            exact Nat.succ_pos _
          · have hcb' : ((deps b).all (fun d => !(x :: xs).contains d)) = false := by
              cases hx : ((deps b).all (fun d => !(x :: xs).contains d)) with
              | true => exact absurd hx hcb
              | false => rfl
            have hbr : b ∈ (x :: xs).filter
                (fun n => !(deps n).all (fun d => !(x :: xs).contains d)) :=
              List.mem_filter.2 ⟨hbp, by rw [hcb']; rfl⟩
            have := hrk a har b hb hbr
            rw [if_neg hcb, if_neg hca]
            omega

theorem stall_cycle {deps : String → List String} {p : List String}
    (hne : p ≠ [])
    (hstall : ∀ n ∈ p, ∃ d ∈ deps n, d ∈ p) :
    ∃ m, Relation.TransGen (fun a b => b ∈ deps a) m m := by
  classical
  let F : String → String := fun n =>
    if h : ∃ d, d ∈ deps n ∧ d ∈ p then h.choose else n
  have hF : ∀ n ∈ p, F n ∈ deps n ∧ F n ∈ p := by
    intro n hn
    obtain ⟨d, hd1, hd2⟩ := hstall n hn
    have hex : ∃ d, d ∈ deps n ∧ d ∈ p := ⟨d, hd1, hd2⟩
    simpa only [F, dif_pos hex] using hex.choose_spec
  obtain ⟨x0, hx0⟩ := List.exists_mem_of_ne_nil p hne
  have hgp : ∀ i, F^[i] x0 ∈ p := by
    intro i
    induction i with
    | zero => exact hx0
    | succ i ihi =>
      rw [Function.iterate_succ_apply']
      exact (hF _ ihi).2
  have hgE : ∀ i, F^[i + 1] x0 ∈ deps (F^[i] x0) := by
    intro i
    rw [Function.iterate_succ_apply']
    exact (hF _ (hgp i)).1
  have hchain : ∀ i k, Relation.TransGen (fun a b => b ∈ deps a) (F^[i] x0) (F^[i + k + 1] x0) := by
    intro i k
    induction k with
    | zero => exact Relation.TransGen.single (hgE i)
    | succ k ihk => exact Relation.TransGen.tail ihk (hgE (i + k + 1))
  have hmap : ∀ i ∈ Finset.range (p.toFinset.card + 1), F^[i] x0 ∈ p.toFinset := by
    intro i _
    exact List.mem_toFinset.2 (hgp i)
  obtain ⟨i, hi, j, hj, hij, heq⟩ :=
    Finset.exists_ne_map_eq_of_card_lt_of_maps_to
      (by simp) hmap
  rcases Nat.lt_or_ge i j with hlt | hge
  · refine ⟨F^[i] x0, ?_⟩
    have := hchain i (j - i - 1)
    rw [show i + (j - i - 1) + 1 = j by omega] at this
    rw [← heq] at this
    exact this
  · have hlt : j < i := Nat.lt_of_le_of_ne hge (fun h => hij h.symm)
    refine ⟨F^[j] x0, ?_⟩
    have := hchain j (i - j - 1)
    rw [show j + (i - j - 1) + 1 = i by omega] at this
    rw [heq] at this
    exact this

theorem kahnAux_total {deps : String → List String}
    (hnc : ¬∃ m, Relation.TransGen (fun a b => b ∈ deps a) m m) :
    ∀ (fuel : Nat) (p em : List String), p.length ≤ fuel →
      ∃ L, kahnAux deps fuel em p = some L := by
  intro fuel
  induction fuel with
  | zero =>
    intro p em hlen
    have : p = [] := List.length_eq_zero.1 (Nat.le_zero.1 hlen)
    subst this
    exact ⟨em.reverse, rfl⟩
  | succ f ih =>
    intro p em hlen
    cases p with
    | nil => exact ⟨em.reverse, rfl⟩
    | cons x xs =>
      by_cases hre :
          ((x :: xs).filter (fun n => (deps n).all (fun d => !(x :: xs).contains d))).isEmpty
      · exfalso
        apply hnc
        apply @stall_cycle deps (x :: xs) (by simp)
        intro n hn
        have hfil : ∀ n ∈ (x :: xs),
            ((deps n).all (fun d => !(x :: xs).contains d)) = false := by
          intro m hm
          have hnil := List.isEmpty_iff.1 hre
          cases hx : ((deps m).all (fun d => !(x :: xs).contains d)) with
          | false => rfl
          | true =>
            have : m ∈ (x :: xs).filter
                (fun n => (deps n).all (fun d => !(x :: xs).contains d)) :=
              List.mem_filter.2 ⟨hm, hx⟩
            rw [hnil] at this
            cases this
        have := hfil n hn
        rw [List.all_eq_false] at this
        obtain ⟨d, hd, hdc⟩ := this
        refine ⟨d, hd, ?_⟩
        have : (x :: xs).contains d = true := by
          cases hy : (x :: xs).contains d with
          | true => rfl
          | false =>
            exfalso
            apply hdc
            rw [hy]
            decide
        simpa using this
      · have hready : ∃ y ∈ (x :: xs),
            ((deps y).all (fun d => !(x :: xs).contains d)) = true := by
          cases hfe : (x :: xs).filter
              (fun n => (deps n).all (fun d => !(x :: xs).contains d)) with
          | nil => exact absurd (by rw [hfe]; rfl) hre
          | cons z zs =>
            have hz : z ∈ (x :: xs).filter
                (fun n => (deps n).all (fun d => !(x :: xs).contains d)) := by
              rw [hfe]; exact List.mem_cons_self _ _
            obtain ⟨hz1, hz2⟩ := List.mem_filter.1 hz
            exact ⟨z, hz1, hz2⟩
        obtain ⟨y, hy, hqy⟩ := hready
        have hlt : ((x :: xs).filter
            (fun n => !(deps n).all (fun d => !(x :: xs).contains d))).length
            < (x :: xs).length :=
          length_filter_lt hy (by rw [hqy]; rfl)
        obtain ⟨L, hL⟩ := ih ((x :: xs).filter
            (fun n => !(deps n).all (fun d => !(x :: xs).contains d)))
          (((x :: xs).filter (fun n => (deps n).all (fun d => !(x :: xs).contains d))).reverse
            ++ em)
          (by simp only [List.length_cons] at hlen hlt; omega)
        refine ⟨L, ?_⟩
        simp only [kahnAux]
        rw [if_neg hre]
        exact hL

theorem rank_no_cycle {deps : String → List String} {p : List String}
    (rank : String → Nat)
    (hrank : ∀ a ∈ p, ∀ b ∈ deps a, b ∈ p → rank b < rank a)
    (hedge_mem : ∀ a b, b ∈ deps a → a ∈ p ∧ b ∈ p)
    {n : String} (hc : Relation.TransGen (fun a b => b ∈ deps a) n n) : False := by
  have key : ∀ a b, Relation.TransGen (fun a b => b ∈ deps a) a b → rank b < rank a := by
    intro a b h
    induction h with
    | single hab => exact hrank _ (hedge_mem _ _ hab).1 _ hab (hedge_mem _ _ hab).2
    | tail _ hbc ihab =>
      exact Nat.lt_trans
        (hrank _ (hedge_mem _ _ hbc).1 _ hbc (hedge_mem _ _ hbc).2) ihab
  exact Nat.lt_irrefl _ (key n n hc)

theorem truthy_false_of_not_key {dir : List (String × RawDef)} {k : String}
    (h : k ∉ dir.map Prod.fst) : truthyAtB dir k = false := by
  have : alookup dir k = none := alookup_eq_none_iff.2 h
  simp [truthyAtB, this]

theorem dirEdge_mem {dir : List (String × RawDef)} {virtuals : List String}
    (href : ∀ p ∈ dir, ∀ d ∈ rawRequires p.2, d ∈ dir.map Prod.fst ∨ d ∈ virtuals) :
    ∀ a b, b ∈ kahnDeps dir a →
      a ∈ dir.map Prod.fst ++ virtuals ∧ b ∈ dir.map Prod.fst ++ virtuals := by
  intro a b hb
  cases hla : alookup dir a with
  | none => rw [kahnDeps, hla] at hb; cases hb
  | some d =>
    rw [kahnDeps, hla] at hb
    have hmem : (a, d) ∈ dir := alookup_mem hla
    have hak : a ∈ dir.map Prod.fst := List.mem_map.2 ⟨(a, d), hmem, rfl⟩
    refine ⟨List.mem_append_left _ hak, ?_⟩
    rcases href (a, d) hmem b hb with hk | hv
    · exact List.mem_append_left _ hk
    · exact List.mem_append_right _ hv

theorem construct_guard {dir : List (String × RawDef)} {virtuals : List String}
    (hdisj : ∀ k ∈ dir.map Prod.fst, k ∉ virtuals) :
    ((dir.map Prod.fst).all (fun k => !virtuals.contains k)) = true :=
  List.all_eq_true.2 (fun k hk => by simp [hdisj k hk])

/-- **C2.** For every directory with well-formed definitions, defined
references, virtual names disjoint from directory keys, and no use of
the reserved name, loader construction succeeds when the dependency
graph (directory entries plus virtual components) is acyclic; and for
every such directory whose graph contains a cycle (self-loops included),
construction fails with `CyclicDependency`. -/
theorem c2_acyclic_succeeds_cycle_fails :
    ∀ (dir : List (String × RawDef)) (virtuals : List String),
      ((∀ k ∈ dir.map Prod.fst, k ∉ virtuals) →
       (∀ p ∈ dir, validateComponent p.2 p.1 = .ok ()) →
       (∀ p ∈ dir, ∀ d ∈ rawRequires p.2, d ∈ dir.map Prod.fst ∨ d ∈ virtuals) →
       "graphviz" ∉ dir.map Prod.fst → "graphviz" ∉ virtuals →
       ¬HasCycle dir → ∃ ldr, loaderConstruct dir virtuals = .ok ldr) ∧
      ((∀ k ∈ dir.map Prod.fst, k ∉ virtuals) →
       (∀ p ∈ dir, validateComponent p.2 p.1 = .ok ()) →
       (∀ p ∈ dir, ∀ d ∈ rawRequires p.2, d ∈ dir.map Prod.fst ∨ d ∈ virtuals) →
       HasCycle dir → loaderConstruct dir virtuals = .error .cyclicDependency) := by
  intro dir virtuals
  constructor
  · intro hdisj hval href hgd hgv hnc
    have hr : ∀ p ∈ dir, ∀ d ∈ rawRequires p.2, truthyAtB dir d = true ∨ d ∈ virtuals :=
      fun p hp d hd => (href p hp d hd).elim
        (fun hk => Or.inl (truthy_of_key hval hk)) Or.inr
    obtain ⟨L, hL⟩ := @kahnAux_total (kahnDeps dir)
      (by simpa [HasCycle, DirEdge] using hnc)
      (dir.map Prod.fst ++ virtuals).length (dir.map Prod.fst ++ virtuals) []
      (Nat.le_refl _)
    unfold loaderConstruct
    rw [if_pos (construct_guard hdisj), checkEntries_ok hval hr, hL]
    dsimp only
    have h1 : truthyAtB dir "graphviz" = false := truthy_false_of_not_key hgd
    have h2 : virtuals.contains "graphviz" = false := by simp [hgv]
    rw [if_neg (by rw [h1, h2]; decide)]
    exact ⟨_, rfl⟩
  · intro hdisj hval href hc
    have hr : ∀ p ∈ dir, ∀ d ∈ rawRequires p.2, truthyAtB dir d = true ∨ d ∈ virtuals :=
      fun p hp d hd => (href p hp d hd).elim
        (fun hk => Or.inl (truthy_of_key hval hk)) Or.inr
    unfold loaderConstruct
    rw [if_pos (construct_guard hdisj), checkEntries_ok hval hr]
    dsimp only
    cases hk : kahnAux (kahnDeps dir) (dir.map Prod.fst ++ virtuals).length []
        (dir.map Prod.fst ++ virtuals) with
    | none => rfl
    | some L =>
      exfalso
      obtain ⟨rank, hrank⟩ := kahnAux_rank _ _ _ _ hk
      obtain ⟨n, hn⟩ := hc
      exact rank_no_cycle rank hrank (dirEdge_mem href) hn

theorem no_cycle_of_rank {dir : List (String × RawDef)} (rank : String → Nat)
    (h : ∀ a b, DirEdge dir a b → rank b < rank a) : ¬HasCycle dir := by
  rintro ⟨n, hn⟩
  have key : ∀ a b, Relation.TransGen (DirEdge dir) a b → rank b < rank a := by
    intro a b hab
    induction hab with
    | single e => exact h _ _ e
    | tail _ e ih => exact Nat.lt_trans (h _ _ e) ih
  exact Nat.lt_irrefl _ (key n n hn)

theorem appRaw_acyclic : ¬HasCycle appRaw := by
  apply no_cycle_of_rank (fun n => if n = "app" then 1 else 0)
  intro a b hab
  by_cases ha : ("app" : String) = a
  · subst ha
    have hb : b ∈ rawRequires (RawDef.obj (some (fun _ => .ok (.num 1)))
        (.array [.str "config"])) := by
      simpa [DirEdge, kahnDeps, alookup, appRaw] using hab
    have : b = "config" := by simpa [rawRequires] using hb
    subst this
    decide
  · exact absurd hab (by simp [DirEdge, kahnDeps, alookup, appRaw, ha])

/-- **C2 witness.** A concrete acyclic directory constructs, and a
concrete self-loop fails with `CyclicDependency`. -/
theorem c2_witness :
    (∃ ldr, loaderConstruct appRaw ["config"] = .ok ldr) ∧
    loaderConstruct [("a", RawDef.obj (some (fun _ => .ok (.num 0)))
      (.array [.str "a"]))] [] = .error .cyclicDependency := by
  constructor
  · exact (c2_acyclic_succeeds_cycle_fails appRaw ["config"]).1
      (by decide) (by decide) (by decide) (by decide) (by decide) appRaw_acyclic
  · exact (c2_acyclic_succeeds_cycle_fails _ _).2
      (by decide) (by decide) (by decide)
      ⟨"a", Relation.TransGen.single
        (show ("a" : String) ∈ kahnDeps [("a", RawDef.obj (some (fun _ => .ok (.num 0)))
          (.array [.str "a"]))] "a" from by decide)⟩

/-- **C4 (amended).** The reserved-name check runs after component
validation, reference checking and the cycle check (loader.js:249 is
after line 246): when those pass and `graphviz` is defined by the
directory or declared virtual, construction fails with `ReservedName`. -/
theorem c4_reserved_checked_last :
    ∀ (dir : List (String × RawDef)) (virtuals : List String),
      (∀ k ∈ dir.map Prod.fst, k ∉ virtuals) →
      (∀ p ∈ dir, validateComponent p.2 p.1 = .ok ()) →
      (∀ p ∈ dir, ∀ d ∈ rawRequires p.2, d ∈ dir.map Prod.fst ∨ d ∈ virtuals) →
      ¬HasCycle dir →
      ("graphviz" ∈ dir.map Prod.fst ∨ "graphviz" ∈ virtuals) →
      loaderConstruct dir virtuals = .error .reservedName := by
  intro dir virtuals hdisj hval href hnc hgv
  have hr : ∀ p ∈ dir, ∀ d ∈ rawRequires p.2, truthyAtB dir d = true ∨ d ∈ virtuals :=
    fun p hp d hd => (href p hp d hd).elim
      (fun hk => Or.inl (truthy_of_key hval hk)) Or.inr
  obtain ⟨L, hL⟩ := @kahnAux_total (kahnDeps dir)
    (by simpa [HasCycle, DirEdge] using hnc)
    (dir.map Prod.fst ++ virtuals).length (dir.map Prod.fst ++ virtuals) []
    (Nat.le_refl _)
  unfold loaderConstruct
  rw [if_pos (construct_guard hdisj), checkEntries_ok hval hr, hL]
  dsimp only
  have hcond : (truthyAtB dir "graphviz" || virtuals.contains "graphviz") = true := by
    rcases hgv with hk | hv
    · rw [truthy_of_key hval hk]; rfl
    · simp [hv]
  rw [if_pos hcond]

/-- **C4 counterexample.** A directory that defines `graphviz` and also
contains a cycle fails with `CyclicDependency`, not `ReservedName`: the
reserved-name failure is not reported before the other validations. -/
theorem c4_counterexample :
    loaderConstruct gvCycleRaw [] = .error .cyclicDependency ∧
    loaderConstruct gvCycleRaw [] ≠ .error .reservedName := by
  constructor
  · rfl
  · intro h
    rw [show loaderConstruct gvCycleRaw [] = .error .cyclicDependency from rfl] at h
    exact absurd (Except.error.inj h) (by decide)

/-- **C4 witness.** A directory defining `graphviz` with every other
validation passing fails with `ReservedName`. -/
theorem c4_witness :
    loaderConstruct [("graphviz", RawDef.obj (some (fun _ => .ok (.num 0))) .absent)] []
      = .error .reservedName := by
  apply c4_reserved_checked_last
  · decide
  · decide
  · decide
  · apply no_cycle_of_rank (fun _ => 0)
    intro a b hab
    exfalso
    revert hab
    by_cases h : ("graphviz" : String) = a
    · subst h
      simp [DirEdge, kahnDeps, alookup, rawRequires]
    · simp [DirEdge, kahnDeps, alookup, h]
  · exact Or.inl (by decide)

/-- **C3.** For every directory of well-formed definitions (with virtual
names disjoint from keys) in which some entry requires a name that is
neither a directory key nor a declared virtual component, construction
fails with `UndefinedComponent`. -/
theorem c3_undefined_component :
    ∀ (dir : List (String × RawDef)) (virtuals : List String),
      (∀ k ∈ dir.map Prod.fst, k ∉ virtuals) →
      (∀ p ∈ dir, validateComponent p.2 p.1 = .ok ()) →
      (∃ p ∈ dir, ∃ d ∈ rawRequires p.2, d ∉ dir.map Prod.fst ∧ d ∉ virtuals) →
      ∃ d, loaderConstruct dir virtuals = .error (.undefinedComponent d) := by
  intro dir virtuals hdisj hval hbad
  obtain ⟨p, hp, d, hd, hdk, hdv⟩ := hbad
  obtain ⟨d', hd'⟩ :=
    checkEntries_undef hval ⟨p, hp, d, hd, truthy_false_of_not_key hdk, hdv⟩
  refine ⟨d', ?_⟩
  unfold loaderConstruct
  rw [if_pos (construct_guard hdisj), hd']

/-- **C3 witness.** A requires entry naming a component absent from both
the directory and the virtual list fails with `UndefinedComponent`. -/
theorem c3_witness :
    ∃ d, loaderConstruct
      [("a", RawDef.obj (some (fun _ => .ok (.num 0))) (.array [.str "ghost"]))] []
      = .error (.undefinedComponent d) := by
  apply c3_undefined_component
  · decide
  · decide
  · exact ⟨("a", RawDef.obj (some (fun _ => .ok (.num 0))) (.array [.str "ghost"])),
      List.mem_cons_self _ _, "ghost", by decide, by decide, by decide⟩

/-- **C7 (amended).** `validateComponent` fails with the invalid-component
error for a non-object value other than `null`/`undefined`, for an object
without a callable setup, and for a truthy non-array or non-string-array
requires; an object passes exactly when its setup is callable and its
requires is absent or an array of strings.  A `null` or `undefined`
definition instead raises a TypeError (the line-24 check lets it through
and `def.setup` dereferences it). -/
theorem c7_validate_classification :
    ∀ n : String,
      (validateComponent .jsNull n = .error .typeErrorNullDef) ∧
      (validateComponent .jsUndefined n = .error .typeErrorNullDef) ∧
      (∀ b, validateComponent (.nonObject b) n = .error .invalidComponent) ∧
      (∀ f req, validateComponent (.obj f req) n = .ok () ↔
        (f.isSome = true ∧ (req = .absent ∨
          ∃ es, req = .array es ∧ ∀ e ∈ es, ∃ s, e = .str s))) ∧
      (∀ f req, validateComponent (.obj f req) n ≠ .ok () →
        validateComponent (.obj f req) n = .error .invalidComponent) := by
  intro n
  refine ⟨rfl, rfl, fun b => rfl, ?_, ?_⟩
  · intro f req
    cases f with
    | none =>
      constructor
      · intro h
        exact absurd h (by simp [validateComponent])
      · rintro ⟨h, -⟩
        exact absurd h (by simp)
    | some f0 =>
      cases req with
      | absent => simp [validateComponent]
      | nonArrayTruthy =>
        constructor
        · intro h
          exact absurd h (by simp [validateComponent])
        · rintro ⟨-, h | ⟨es, h, -⟩⟩ <;> exact ReqField.noConfusion h
      | array es =>
        simp only [validateComponent, Option.isSome_some, true_and]
        by_cases hall :
            (es.all (fun e => match e with | .str _ => true | .nonStr => false)) = true
        · rw [if_neg (by simp), if_pos hall]
          constructor
          · intro _
            refine Or.inr ⟨es, rfl, ?_⟩
            intro e he
            have := List.all_eq_true.1 hall e he
            cases e with
            | str s => exact ⟨s, rfl⟩
            | nonStr => exact Bool.noConfusion this
          · intro _; rfl
        · rw [if_neg (by simp), if_neg hall]
          constructor
          · intro h; exact Except.noConfusion h
          · rintro (h | ⟨es', hes', hstr⟩)
            · exact ReqField.noConfusion h
            · exfalso
              apply hall
              obtain rfl : es = es' := by
                injection hes'
              apply List.all_eq_true.2
              intro e he
              obtain ⟨s, rfl⟩ := hstr e he
              rfl
  · intro f req h
    cases f with
    | none => simp [validateComponent]
    | some f0 =>
      cases req with
      | absent => exact absurd rfl h
      | nonArrayTruthy => simp [validateComponent]
      | array es =>
        by_cases hall :
            (es.all (fun e => match e with | .str _ => true | .nonStr => false)) = true
        · exact absurd (by simp [validateComponent, hall]) h
        · simp [validateComponent, hall]

/-- **C7 witness.** A definition without a callable setup fails with the
invalid-component error. -/
theorem c7_witness :
    validateComponent (.obj none .absent) "a" = .error .invalidComponent :=
  (c7_validate_classification "a").2.2.2.2 none .absent (by decide)

/-- **C7 counterexample.** A `null` definition makes construction fail
with a TypeError, not the invalid-component error claimed. -/
theorem c7_counterexample :
    loaderConstruct [("a", RawDef.jsNull)] [] = .error .typeErrorNullDef ∧
    loaderConstruct [("a", RawDef.jsNull)] [] ≠ .error .invalidComponent := by
  constructor
  · rfl
  · intro h
    rw [show loaderConstruct [("a", RawDef.jsNull)] [] = .error .typeErrorNullDef
      from rfl] at h
    exact absurd (Except.error.inj h) (by decide)

theorem loaderConstruct_ok_shape {dir : List (String × RawDef)} {virtuals : List String}
    {ldr : Loader} (h : loaderConstruct dir virtuals = .ok ldr) :
    ldr.virtuals = virtuals ∧ ∃ gv, ldr.sessionDir = extractDir dir ++ [("graphviz", gv)] := by
  unfold loaderConstruct at h
  by_cases hg : ((dir.map Prod.fst).all (fun k => !virtuals.contains k)) = true
  · rw [if_pos hg] at h
    cases hce : checkEntries dir virtuals dir with
    | error e => rw [hce] at h; exact Except.noConfusion h
    | ok u =>
      cases u
      rw [hce] at h
      dsimp only at h
      cases hk : kahnAux (kahnDeps dir) (dir.map Prod.fst ++ virtuals).length []
          (dir.map Prod.fst ++ virtuals) with
      | none => rw [hk] at h; exact Except.noConfusion h
      | some L =>
        rw [hk] at h
        dsimp only at h
        by_cases hgv : (truthyAtB dir "graphviz" || virtuals.contains "graphviz") = true
        · rw [if_pos hgv] at h; exact Except.noConfusion h
        · rw [if_neg hgv] at h
          obtain rfl := Except.ok.inj h
          exact ⟨rfl, ⟨_, rfl⟩⟩
  · rw [if_neg hg] at h; exact Except.noConfusion h

/-- **C10.** Against a successfully constructed loader, a load call whose
target names no directory entry, no virtual, is not `graphviz` and is
not a key of options throws the synchronous TypeError of
`def.requires` on an undefined definition, rather than settling. -/
theorem c10_unknown_target_throws :
    ∀ (dir : List (String × RawDef)) (virtuals : List String) (ldr : Loader),
      loaderConstruct dir virtuals = .ok ldr →
      ∀ (fuel : Nat) (target : String) (options : List (String × Value)),
        (∀ v ∈ ldr.virtuals, (alookup options v).isSome = true) →
        alookup options target = none →
        target ∉ dir.map Prod.fst →
        target ≠ "graphviz" →
        loadCall ldr (fuel + 1) target options = ([], .typeErrorUndefined) := by
  intro dir virtuals ldr hok fuel target options hvopts hopt htk htg
  obtain ⟨hv, gv, hsd⟩ := loaderConstruct_ok_shape hok
  have hall : (ldr.virtuals.all (fun v => (alookup options v).isSome)) = true :=
    List.all_eq_true.2 hvopts
  have hmemo : alookup (options.map (fun p => (p.1, (Except.ok p.2 : Res)))) target = none := by
    rw [alookup_map_val (fun v => (Except.ok v : Res))]
    rw [hopt]
    rfl
  have hdir : alookup ldr.sessionDir target = none := by
    rw [hsd]
    rw [alookup_append_none _
      (alookup_eq_none_iff.2 (fun hmem => htk (extractDir_key_sub hmem)))]
    have hne : ¬("graphviz" = target) := fun e => htg e.symm
    simp [alookup, hne]
  have hres : resolve ldr.sessionDir (fuel + 1)
      (options.map (fun p => (p.1, (Except.ok p.2 : Res)))) [] target
      = .error .typeErrorUndefined := by
    simp only [resolve]
    rw [hmemo]
    dsimp only
    rw [hdir]
  unfold loadCall
  rw [if_pos hall, hres]

/-- **C10 witness.** Loading an unknown name from the constructed
`app`/`config` loader throws synchronously. -/
theorem c10_witness :
    loadCall appLoader 1 "zzz" [("config", .num 7)] = ([], .typeErrorUndefined) := by
  have h := c10_unknown_target_throws appRaw ["config"] appLoader rfl 0 "zzz"
    [("config", .num 7)] (by decide) rfl (by decide) (by decide)
  exact h

/-- **C5.** A load call with some declared virtual component missing
from `options` fails with `MissingVirtualBinding` and invokes no setup
function; when every virtual name is bound, resolution proceeds: on the
spec's example, `load('app', {})` fails while `load('app', {config: X})`
settles successfully and `app`'s setup receives `{config: X}` as its
context. -/
theorem c5_missing_virtual_binding :
    (∀ (ldr : Loader) (fuel : Nat) (target : String) (options : List (String × Value)),
      (∃ v, v ∈ ldr.virtuals ∧ alookup options v = none) →
      loadCall ldr fuel target options = ([], .missingVirtual)) ∧
    (loaderConstruct appRaw ["config"] = .ok appLoader ∧
     loadCall appLoader 5 "app" [] = ([], .missingVirtual) ∧
     ∃ log r, loadCall appLoader 5 "app" [("config", .num 7)] = (log, .settled (.ok r)) ∧
       ("app", [("config", Value.num 7)]) ∈ log) := by
  constructor
  · rintro ldr fuel target options ⟨v, hv, hnone⟩
    unfold loadCall
    rw [if_neg ?hc]
    case hc =>
      intro hall
      have := List.all_eq_true.1 hall v hv
      rw [hnone] at this
      exact Bool.noConfusion this
  · refine ⟨rfl, rfl, ?_⟩
    refine ⟨_, _, rfl, ?_⟩
    decide

/-- **C5 witness.** The general missing-virtual clause applied to the
`app`/`config` loader with empty options. -/
theorem c5_witness :
    loadCall appLoader 7 "app" [] = ([], .missingVirtual) :=
  c5_missing_virtual_binding.1 appLoader 7 "app" [] ⟨"config", by decide, rfl⟩

/-! ## Frame property: the caller's objects are never written -/

theorem foldr_max_bound : ∀ (l : List Nat) (r : Nat), r ∈ l →
    r ≤ l.foldr (fun a b => max a b) 0 := by
  intro l
  induction l with
  | nil => intro r h; cases h
  | cons a t ih =>
    intro r h
    rcases List.mem_cons.1 h with rfl | hm
    · exact Nat.le_max_left _ _
    · exact Nat.le_trans (ih r hm) (Nat.le_max_right _ _)

theorem freshRef_not_mem (h : Heap) : freshRef h ∉ h.map Prod.fst := by
  intro hmem
  have := foldr_max_bound _ _ hmem
  unfold freshRef at hmem this
  omega

theorem hGet_mem {h : Heap} {r : Nat} {x : HObj} (hx : hGet h r = some x) :
    r ∈ h.map Prod.fst := by
  by_contra hc
  rw [show hGet h r = alookup h r from rfl, alookup_eq_none_iff.2 hc] at hx
  exact Option.noConfusion hx

theorem hGet_hSet_ne {h : Heap} {r r' : Nat} {o : HObj} (hne : r' ≠ r) :
    hGet (hSet h r' o) r = hGet h r := by
  simp [hGet, hSet, alookup, hne]

theorem hGet_writesFold {l r : Nat} (hne : l ≠ r) :
    ∀ (writes : List (String × Nat)) (hh : Heap),
      hGet (writes.foldl
        (fun hh w => hSet hh l (objSetField ((hGet hh l).getD []) w.1 w.2)) hh) r
      = hGet hh r := by
  intro writes
  induction writes with
  | nil => intro hh; rfl
  | cons w ws ih =>
    intro hh
    rw [List.foldl_cons, ih, hGet_hSet_ne hne]

/-- **C9.** Construction and load calls never write the caller's
objects: construction clones the directory and injects `graphviz` only
into the clone, and a load call clones its options and writes only the
fresh session memoization table, so every pre-existing object — the
caller's directory, the caller's options, and the validated directory
shared by every load call — is unchanged. -/
theorem c9_no_caller_mutation :
    (∀ (h : Heap) (dirRef gvRef : Nat) (x : HObj), hGet h dirRef = some x →
      hGet (constructHeapOps h dirRef gvRef).1 dirRef = some x) ∧
    (∀ (h : Heap) (optRef : Nat) (writes : List (String × Nat)) (r : Nat) (x : HObj),
      hGet h r = some x → hGet (loadHeapOps h optRef writes).1 r = some x) := by
  constructor
  · intro h dirRef gvRef x hx
    have hne : freshRef h ≠ dirRef :=
      fun e => freshRef_not_mem h (e ▸ hGet_mem hx)
    show hGet (hSet ((freshRef h, (hGet h dirRef).getD []) :: h) (freshRef h) _) dirRef
      = some x
    rw [hGet_hSet_ne hne]
    show alookup ((freshRef h, (hGet h dirRef).getD []) :: h) dirRef = some x
    simp only [alookup, if_neg hne]
    exact hx
  · intro h optRef writes r x hx
    have hne1 : freshRef h ≠ r := fun e => freshRef_not_mem h (e ▸ hGet_mem hx)
    have hx1 : hGet ((freshRef h, (hGet h optRef).getD []) :: h) r = some x := by
      show alookup _ r = some x
      simp only [alookup, if_neg hne1]
      exact hx
    have hne2 : freshRef ((freshRef h, (hGet h optRef).getD []) :: h) ≠ r :=
      fun e => freshRef_not_mem _ (e ▸ hGet_mem hx1)
    unfold loadHeapOps hClone hAlloc
    dsimp only
    rw [hGet_writesFold hne2]
    show alookup _ r = some x
    simp only [alookup, if_neg hne2]
    exact hx1

/-- **C9 witness.** A concrete heap object survives both construction
and a load call with writes. -/
theorem c9_witness :
    hGet (constructHeapOps [(1, [("a", 5)])] 1 9).1 1 = some [("a", 5)] ∧
    hGet (loadHeapOps [(1, [("a", 5)])] 1 [("k", 3)]).1 1 = some [("a", 5)] :=
  ⟨c9_no_caller_mutation.1 [(1, [("a", 5)])] 1 9 [("a", 5)] rfl,
   c9_no_caller_mutation.2 [(1, [("a", 5)])] 1 [("k", 3)] 1 [("a", 5)] rfl⟩

/-! ## Lemmas about session resolution -/

theorem resolve_memo_hit {dir : List (String × SDef)} {f : Nat} {memo : Memo} {log : Log}
    {t : String} {r : Res} (h : alookup memo t = some r) :
    resolve dir f memo log t = .ok (memo, log, r) := by
  cases f with
  | zero => simp [resolve, h]
  | succ f => simp [resolve, h]

theorem collectDeps_err_mem {rs : List Res} {e : String}
    (h : collectDeps rs = .error e) : ∃ r ∈ rs, r = .error e := by
  induction rs with
  | nil => exact Except.noConfusion h
  | cons r0 rs ih =>
    cases r0 with
    | error e0 =>
      refine ⟨.error e0, List.mem_cons_self _ _, ?_⟩
      simp only [collectDeps] at h
      rw [Except.error.inj h]
    | ok v0 =>
      simp only [collectDeps] at h
      cases hc : collectDeps rs with
      | error e1 =>
        rw [hc] at h
        obtain ⟨r1, hr1, hr2⟩ := ih (by rw [hc, Except.error.inj h])
        exact ⟨r1, List.mem_cons_of_mem _ hr1, hr2⟩
      | ok vs => rw [hc] at h; exact Except.noConfusion h

theorem collectDeps_ok_mem {rs : List Res} {vs : List Value}
    (h : collectDeps rs = .ok vs) : ∀ r ∈ rs, ∃ v, r = .ok v := by
  induction rs generalizing vs with
  | nil => intro r hr; cases hr
  | cons r0 rs ih =>
    intro r hr
    cases r0 with
    | error e0 => exact Except.noConfusion h
    | ok v0 =>
      simp only [collectDeps] at h
      cases hc : collectDeps rs with
      | error e1 => rw [hc] at h; exact Except.noConfusion h
      | ok vs0 =>
        rcases List.mem_cons.1 hr with rfl | hm
        · exact ⟨v0, rfl⟩
        · exact ih hc r hm

theorem forall2_mem_right {α β : Type} {R : α → β → Prop} :
    ∀ {l1 : List α} {l2 : List β}, List.Forall₂ R l1 l2 →
      ∀ b ∈ l2, ∃ a ∈ l1, R a b := by
  intro l1 l2 h
  induction h with
  | nil => intro b hb; cases hb
  | cons hr _ ih =>
    intro b hb
    rcases List.mem_cons.1 hb with rfl | hm
    · exact ⟨_, List.mem_cons_self _ _, hr⟩
    · obtain ⟨a, ha, har⟩ := ih b hm
      exact ⟨a, List.mem_cons_of_mem _ ha, har⟩

theorem forall2_mem_left {α β : Type} {R : α → β → Prop} :
    ∀ {l1 : List α} {l2 : List β}, List.Forall₂ R l1 l2 →
      ∀ a ∈ l1, ∃ b ∈ l2, R a b := by
  intro l1 l2 h
  induction h with
  | nil => intro a ha; cases ha
  | cons hr _ ih =>
    intro a ha
    rcases List.mem_cons.1 ha with rfl | hm
    · exact ⟨_, List.mem_cons_self _ _, hr⟩
    · obtain ⟨b, hb, hbr⟩ := ih a hm
      exact ⟨b, List.mem_cons_of_mem _ hb, hbr⟩

theorem resolveMany_taint {sdir : List (String × SDef)} {d0 e : String}
    {g : Memo → Log → String → Except RErr (Memo × Log × Res)}
    (hg : ∀ memo log t m' l' r, TaintInv sdir d0 e memo → g memo log t = .ok (m', l', r) →
      TaintInv sdir d0 e m' ∧ (Reaches sdir t d0 → r = .error e) ∧
      (¬Reaches sdir t d0 → ∃ v, r = .ok v)) :
    ∀ (ds : List String) (memo : Memo) (log : Log) (m' : Memo) (l' : Log) (rs : List Res),
      TaintInv sdir d0 e memo → resolveMany g memo log ds = .ok (m', l', rs) →
      TaintInv sdir d0 e m' ∧
      List.Forall₂ (fun d r => (Reaches sdir d d0 → r = .error e) ∧
        (¬Reaches sdir d d0 → ∃ v, r = .ok v)) ds rs := by
  intro ds
  induction ds with
  | nil =>
    intro memo log m' l' rs hinv h
    simp only [resolveMany, Except.ok.injEq, Prod.mk.injEq] at h
    obtain ⟨rfl, rfl, rfl⟩ := h
    exact ⟨hinv, List.Forall₂.nil⟩
  | cons d ds ih =>
    intro memo log m' l' rs hinv h
    simp only [resolveMany] at h
    cases hgd : g memo log d with
    | error er => rw [hgd] at h; exact Except.noConfusion h
    | ok trip =>
      obtain ⟨m1, l1, r1⟩ := trip
      rw [hgd] at h
      dsimp only at h
      cases hmany : resolveMany g m1 l1 ds with
      | error er => rw [hmany] at h; exact Except.noConfusion h
      | ok trip2 =>
        obtain ⟨m2, l2, rs2⟩ := trip2
        rw [hmany] at h
        dsimp only at h
        simp only [Except.ok.injEq, Prod.mk.injEq] at h
        obtain ⟨rfl, rfl, rfl⟩ := h
        obtain ⟨hinv1, hr⟩ := hg _ _ _ _ _ _ hinv hgd
        obtain ⟨hinv2, hrs⟩ := ih _ _ _ _ _ hinv1 hmany
        exact ⟨hinv2, List.Forall₂.cons hr hrs⟩

theorem resolve_taint {sdir : List (String × SDef)} {d0 e : String} {cd0 : SDef}
    (hd0 : alookup sdir d0 = some cd0)
    (hfail : ∀ ctx, cd0.setup ctx = .error e)
    (hokk : ∀ n cd, alookup sdir n = some cd → n ≠ d0 → ∀ ctx, ∃ v, cd.setup ctx = .ok v) :
    ∀ (f : Nat) (memo : Memo) (log : Log) (t : String) (m' : Memo) (l' : Log) (r : Res),
      TaintInv sdir d0 e memo →
      resolve sdir f memo log t = .ok (m', l', r) →
      TaintInv sdir d0 e m' ∧ (Reaches sdir t d0 → r = .error e) ∧
        (¬Reaches sdir t d0 → ∃ v, r = .ok v) := by
  intro f
  induction f with
  | zero =>
    intro memo log t m' l' r hinv h
    simp only [resolve] at h
    cases hm : alookup memo t with
    | some r0 =>
      rw [hm] at h
      dsimp only at h
      simp only [Except.ok.injEq, Prod.mk.injEq] at h
      obtain ⟨rfl, rfl, rfl⟩ := h
      exact ⟨hinv, hinv t r0 hm⟩
    | none => rw [hm] at h; exact Except.noConfusion h
  | succ f ih =>
    intro memo log t m' l' r hinv h
    simp only [resolve] at h
    cases hm : alookup memo t with
    | some r0 =>
      rw [hm] at h
      dsimp only at h
      simp only [Except.ok.injEq, Prod.mk.injEq] at h
      obtain ⟨rfl, rfl, rfl⟩ := h
      exact ⟨hinv, hinv t r0 hm⟩
    | none =>
      rw [hm] at h
      dsimp only at h
      cases hd : alookup sdir t with
      | none => rw [hd] at h; exact Except.noConfusion h
      | some cd =>
        rw [hd] at h
        dsimp only at h
        cases hmany : resolveMany (resolve sdir f) memo log cd.requires with
        | error er => rw [hmany] at h; exact Except.noConfusion h
        | ok trip =>
          obtain ⟨m1, l1, rs⟩ := trip
          rw [hmany] at h
          dsimp only at h
          obtain ⟨hinv1, hF⟩ := resolveMany_taint ih _ _ _ _ _ _ hinv hmany
          cases hc : collectDeps rs with
          | error e1 =>
            rw [hc] at h
            dsimp only at h
            simp only [Except.ok.injEq, Prod.mk.injEq] at h
            obtain ⟨rfl, rfl, rfl⟩ := h
            obtain ⟨r0, hr0mem, hr0eq⟩ := collectDeps_err_mem hc
            subst hr0eq
            obtain ⟨dstar, hdmem, hdr⟩ := forall2_mem_right hF _ hr0mem
            have hdt : Reaches sdir dstar d0 := by
              by_contra hnt
              obtain ⟨v, hv⟩ := hdr.2 hnt
              exact Except.noConfusion hv
            have he1 : e1 = e := Except.error.inj (hdr.1 hdt)
            subst he1
            have htt : Reaches sdir t d0 :=
              Relation.ReflTransGen.head ⟨cd, hd, hdmem⟩ hdt
            refine ⟨?_, fun _ => rfl, fun hnt => absurd htt hnt⟩
            intro k rk hk
            simp only [alookup] at hk
            by_cases htk : t = k
            · rw [if_pos htk] at hk
              obtain rfl := Option.some.inj hk
              subst htk
              exact ⟨fun _ => rfl, fun hnt => absurd htt hnt⟩
            · rw [if_neg htk] at hk
              exact hinv1 k rk hk
          | ok vals =>
            rw [hc] at h
            dsimp only at h
            simp only [Except.ok.injEq, Prod.mk.injEq] at h
            obtain ⟨rfl, rfl, rfl⟩ := h
            have hnodep : ∀ dd ∈ cd.requires, ¬Reaches sdir dd d0 := by
              intro dd hdd hdt
              obtain ⟨r0, hr0mem, hdr⟩ := forall2_mem_left hF _ hdd
              obtain ⟨v, hv⟩ := collectDeps_ok_mem hc r0 hr0mem
              rw [hdr.1 hdt] at hv
              exact Except.noConfusion hv
            by_cases htd : t = d0
            · have hcd : cd = cd0 := by
                rw [htd] at hd
                rw [hd] at hd0
                exact Option.some.inj hd0
              have hre : cd.setup (cd.requires.zip vals) = .error e := by
                rw [hcd]
                exact hfail _
              have htt : Reaches sdir t d0 := by
                rw [htd]
                exact Relation.ReflTransGen.refl
              refine ⟨?_, fun _ => hre, fun hnt => absurd htt hnt⟩
              intro k rk hk
              simp only [alookup] at hk
              by_cases htk : t = k
              · rw [if_pos htk] at hk
                obtain rfl := Option.some.inj hk
                subst htk
                exact ⟨fun _ => hre, fun hnt => absurd htt hnt⟩
              · rw [if_neg htk] at hk
                exact hinv1 k rk hk
            · have hok := hokk t cd hd htd
              have hnt : ¬Reaches sdir t d0 := by
                intro hre
                rcases Relation.ReflTransGen.cases_head hre with heq | ⟨c, hedge, hrem⟩
                · exact htd heq
                · obtain ⟨cd', hcd', hcmem⟩ := hedge
                  rw [hd] at hcd'
                  obtain rfl := Option.some.inj hcd'
                  exact hnodep c hcmem hrem
              refine ⟨?_, fun ht => absurd ht hnt, fun _ => hok _⟩
              intro k rk hk
              simp only [alookup] at hk
              by_cases htk : t = k
              · rw [if_pos htk] at hk
                obtain rfl := Option.some.inj hk
                subst htk
                exact ⟨fun ht => absurd ht hnt, fun _ => hok _⟩
              · rw [if_neg htk] at hk
                exact hinv1 k rk hk

/-- **C8.** If exactly one component's setup fails (with error `e`),
then a load call settles with that same failure for every target that
transitively requires the failing component, and settles successfully
for every target whose dependency subtree avoids it — the failure is
surfaced as the outcome of the returned deferred value. -/
theorem c8_failure_propagation :
    ∀ (ldr : Loader) (d0 e : String) (cd0 : SDef),
      alookup ldr.sessionDir d0 = some cd0 →
      (∀ ctx, cd0.setup ctx = .error e) →
      (∀ n cd, alookup ldr.sessionDir n = some cd → n ≠ d0 →
        ∀ ctx, ∃ v, cd.setup ctx = .ok v) →
      ∀ (fuel : Nat) (target : String) (log : Log) (r : Res),
        loadCall ldr fuel target [] = (log, .settled r) →
        (Reaches ldr.sessionDir target d0 → r = .error e) ∧
        (¬Reaches ldr.sessionDir target d0 → ∃ v, r = .ok v) := by
  intro ldr d0 e cd0 hd0 hfail hokk fuel target log r hcall
  unfold loadCall at hcall
  simp only [List.map_nil] at hcall
  by_cases hall : (ldr.virtuals.all
      (fun v => (alookup ([] : List (String × Value)) v).isSome)) = true
  · rw [if_pos hall] at hcall
    cases hres : resolve ldr.sessionDir fuel [] [] target with
    | ok trip =>
      obtain ⟨m', l', r'⟩ := trip
      rw [hres] at hcall
      dsimp only at hcall
      obtain ⟨rfl, rfl⟩ : l' = log ∧ r' = r := by
        have h1 := congrArg Prod.fst hcall
        have h2 := congrArg Prod.snd hcall
        dsimp at h1 h2
        exact ⟨h1, Outcome.settled.inj h2⟩
      exact (resolve_taint hd0 hfail hokk fuel [] [] target _ _ _
        (fun k rk hk => Option.noConfusion hk) hres).2
    | error er =>
      rw [hres] at hcall
      cases er with
      | typeErrorUndefined =>
        dsimp only at hcall
        exact Outcome.noConfusion (congrArg Prod.snd hcall)
      | fuelOut =>
        dsimp only at hcall
        exact Outcome.noConfusion (congrArg Prod.snd hcall)
  · rw [if_neg hall] at hcall
    exact Outcome.noConfusion (congrArg Prod.snd hcall)

/-- **C8 witness.** In `failSession` (only `D`'s setup fails), loading
`A` (which requires `D` through `B`) settles with the failure `boom`,
while loading the unrelated `E` settles successfully. -/
theorem c8_witness :
    (∃ log r, loadCall ⟨failSession, [], []⟩ 10 "A" [] = (log, .settled r) ∧
      r = .error "boom") ∧
    (∃ log r, loadCall ⟨failSession, [], []⟩ 10 "E" [] = (log, .settled r) ∧
      ∃ v, r = .ok v) := by
  have hokk : ∀ n cd, alookup failSession n = some cd → n ≠ "D" →
      ∀ ctx, ∃ v, cd.setup ctx = .ok v := by
    intro n cd hcd hne ctx
    simp only [failSession, alookup] at hcd
    by_cases h1 : ("A" : String) = n
    · rw [if_pos h1] at hcd
      obtain rfl := Option.some.inj hcd
      exact ⟨.num 0, rfl⟩
    · rw [if_neg h1] at hcd
      by_cases h2 : ("B" : String) = n
      · rw [if_pos h2] at hcd
        obtain rfl := Option.some.inj hcd
        exact ⟨.num 1, rfl⟩
      · rw [if_neg h2] at hcd
        by_cases h3 : ("D" : String) = n
        · exact absurd h3.symm hne
        · rw [if_neg h3] at hcd
          by_cases h4 : ("E" : String) = n
          · rw [if_pos h4] at hcd
            obtain rfl := Option.some.inj hcd
            exact ⟨.num 5, rfl⟩
          · rw [if_neg h4] at hcd
            exact Option.noConfusion hcd
  constructor
  · refine ⟨_, _, rfl, ?_⟩
    apply (c8_failure_propagation ⟨failSession, [], []⟩ "D" "boom"
      ⟨fun _ => .error "boom", []⟩ rfl (fun _ => rfl) hokk 10 "A" _ _ rfl).1
    exact Relation.ReflTransGen.head
      ⟨⟨fun _ => .ok (.num 0), ["B", "E"]⟩, rfl, List.mem_cons_self _ _⟩
      (Relation.ReflTransGen.head
        ⟨⟨fun _ => .ok (.num 1), ["D"]⟩, rfl, List.mem_cons_self _ _⟩
        Relation.ReflTransGen.refl)
  · refine ⟨_, _, rfl, ?_⟩
    apply (c8_failure_propagation ⟨failSession, [], []⟩ "D" "boom"
      ⟨fun _ => .error "boom", []⟩ rfl (fun _ => rfl) hokk 10 "E" _ _ rfl).2
    intro hre
    rcases Relation.ReflTransGen.cases_head hre with heq | ⟨c, hedge, hrem⟩
    · exact absurd heq (by decide)
    · obtain ⟨cd', hcd', hcmem⟩ := hedge
      have : cd' = ⟨fun _ => .ok (.num 5), []⟩ :=
        (Option.some.inj ((show alookup (⟨failSession, [], []⟩ : Loader).sessionDir "E"
          = some ⟨fun _ => .ok (.num 5), []⟩ from rfl) ▸ hcd')).symm
      rw [this] at hcmem
      cases hcmem

theorem collectDeps_forall2 {rs : List Res} {vs : List Value}
    (h : collectDeps rs = .ok vs) :
    List.Forall₂ (fun r v => r = .ok v) rs vs := by
  induction rs generalizing vs with
  | nil =>
    simp only [collectDeps, Except.ok.injEq] at h
    rw [← h]
    exact List.Forall₂.nil
  | cons r0 rs ih =>
    cases r0 with
    | error e0 => exact Except.noConfusion h
    | ok v0 =>
      simp only [collectDeps] at h
      cases hc : collectDeps rs with
      | error e1 => rw [hc] at h; exact Except.noConfusion h
      | ok vs0 =>
        rw [hc] at h
        obtain rfl := Except.ok.inj h
        exact List.Forall₂.cons rfl (ih hc)

theorem forall2_comp {α β γ : Type} {R : α → β → Prop} {S : β → γ → Prop} :
    ∀ {l1 : List α} {l2 : List β} {l3 : List γ},
      List.Forall₂ R l1 l2 → List.Forall₂ S l2 l3 →
      List.Forall₂ (fun a c => ∃ b, R a b ∧ S b c) l1 l3 := by
  intro l1 l2 l3 h
  induction h generalizing l3 with
  | nil =>
    intro h2
    cases h2
    exact List.Forall₂.nil
  | cons hr _ ih =>
    intro h2
    cases h2 with
    | cons hs hrest => exact List.Forall₂.cons ⟨_, hr, hs⟩ (ih hrest)

theorem forall2_zip_mem {α β : Type} {T : α → β → Prop} :
    ∀ {l1 : List α} {l2 : List β}, List.Forall₂ T l1 l2 →
      ∀ {a : α} {b : β}, (a, b) ∈ l1.zip l2 → T a b := by
  intro l1 l2 h
  induction h with
  | nil => intro a b hab; cases hab
  | cons hr _ ih =>
    intro a b hab
    rcases List.mem_cons.1 hab with heq | hm
    · obtain ⟨rfl, rfl⟩ : a = _ ∧ b = _ := Prod.mk.inj heq
      exact hr
    · exact ih hm

theorem resolveMany_pres {k : String} {v : Value}
    {g : Memo → Log → String → Except RErr (Memo × Log × Res)}
    (hg : ∀ memo log t m' l' r, alookup memo k = some (.ok v) →
      g memo log t = .ok (m', l', r) →
      alookup m' k = some (.ok v) ∧ (t = k → r = .ok v) ∧
      (∃ Δ, l' = log ++ Δ ∧ ∀ p ∈ Δ, p.1 ≠ k ∧ ∀ u, (k, u) ∈ p.2 → u = v)) :
    ∀ (ds : List String) (memo : Memo) (log : Log) (m' : Memo) (l' : Log) (rs : List Res),
      alookup memo k = some (.ok v) →
      resolveMany g memo log ds = .ok (m', l', rs) →
      alookup m' k = some (.ok v) ∧
      List.Forall₂ (fun d r => d = k → r = .ok v) ds rs ∧
      (∃ Δ, l' = log ++ Δ ∧ ∀ p ∈ Δ, p.1 ≠ k ∧ ∀ u, (k, u) ∈ p.2 → u = v) := by
  intro ds
  induction ds with
  | nil =>
    intro memo log m' l' rs hk h
    simp only [resolveMany, Except.ok.injEq, Prod.mk.injEq] at h
    obtain ⟨rfl, rfl, rfl⟩ := h
    exact ⟨hk, List.Forall₂.nil, [], by simp, by simp⟩
  | cons d ds ih =>
    intro memo log m' l' rs hk h
    simp only [resolveMany] at h
    cases hgd : g memo log d with
    | error er => rw [hgd] at h; exact Except.noConfusion h
    | ok trip =>
      obtain ⟨m1, l1, r1⟩ := trip
      rw [hgd] at h
      dsimp only at h
      cases hmany : resolveMany g m1 l1 ds with
      | error er => rw [hmany] at h; exact Except.noConfusion h
      | ok trip2 =>
        obtain ⟨m2, l2, rs2⟩ := trip2
        rw [hmany] at h
        dsimp only at h
        simp only [Except.ok.injEq, Prod.mk.injEq] at h
        obtain ⟨rfl, rfl, rfl⟩ := h
        obtain ⟨hk1, hr1, Δ1, hl1, hΔ1⟩ := hg _ _ _ _ _ _ hk hgd
        obtain ⟨hk2, hrs, Δ2, hl2, hΔ2⟩ := ih _ _ _ _ _ hk1 hmany
        refine ⟨hk2, List.Forall₂.cons hr1 hrs, Δ1 ++ Δ2, ?_, ?_⟩
        · rw [hl2, hl1, List.append_assoc]
        · intro p hp
          rcases List.mem_append.1 hp with h1 | h2
          · exact hΔ1 p h1
          · exact hΔ2 p h2

theorem resolve_pres {sdir : List (String × SDef)} {k : String} {v : Value} :
    ∀ (f : Nat) (memo : Memo) (log : Log) (t : String) (m' : Memo) (l' : Log) (r : Res),
      alookup memo k = some (.ok v) →
      resolve sdir f memo log t = .ok (m', l', r) →
      alookup m' k = some (.ok v) ∧ (t = k → r = .ok v) ∧
      (∃ Δ, l' = log ++ Δ ∧ ∀ p ∈ Δ, p.1 ≠ k ∧ ∀ u, (k, u) ∈ p.2 → u = v) := by
  intro f
  induction f with
  | zero =>
    intro memo log t m' l' r hk h
    simp only [resolve] at h
    cases hm : alookup memo t with
    | some r0 =>
      rw [hm] at h
      dsimp only at h
      simp only [Except.ok.injEq, Prod.mk.injEq] at h
      obtain ⟨rfl, rfl, rfl⟩ := h
      refine ⟨hk, ?_, [], by simp, by simp⟩
      intro htk
      rw [htk] at hm
      rw [hm] at hk
      exact Option.some.inj hk
    | none => rw [hm] at h; exact Except.noConfusion h
  | succ f ih =>
    intro memo log t m' l' r hk h
    simp only [resolve] at h
    cases hm : alookup memo t with
    | some r0 =>
      rw [hm] at h
      dsimp only at h
      simp only [Except.ok.injEq, Prod.mk.injEq] at h
      obtain ⟨rfl, rfl, rfl⟩ := h
      refine ⟨hk, ?_, [], by simp, by simp⟩
      intro htk
      rw [htk] at hm
      rw [hm] at hk
      exact Option.some.inj hk
    | none =>
      have htk : t ≠ k := by
        intro he
        rw [he, hk] at hm
        exact Option.noConfusion hm
      rw [hm] at h
      dsimp only at h
      cases hd : alookup sdir t with
      | none => rw [hd] at h; exact Except.noConfusion h
      | some cd =>
        rw [hd] at h
        dsimp only at h
        cases hmany : resolveMany (resolve sdir f) memo log cd.requires with
        | error er => rw [hmany] at h; exact Except.noConfusion h
        | ok trip =>
          obtain ⟨m1, l1, rs⟩ := trip
          rw [hmany] at h
          dsimp only at h
          obtain ⟨hk1, hF, Δd, hld, hΔd⟩ := resolveMany_pres ih _ _ _ _ _ _ hk hmany
          cases hc : collectDeps rs with
          | error e1 =>
            rw [hc] at h
            dsimp only at h
            simp only [Except.ok.injEq, Prod.mk.injEq] at h
            obtain ⟨rfl, rfl, rfl⟩ := h
            refine ⟨?_, fun he => absurd he htk, Δd, hld, hΔd⟩
            show alookup ((t, Except.error e1) :: m1) k = some (Except.ok v)
            simp only [alookup, if_neg htk]
            exact hk1
          | ok vals =>
            rw [hc] at h
            dsimp only at h
            simp only [Except.ok.injEq, Prod.mk.injEq] at h
            obtain ⟨rfl, rfl, rfl⟩ := h
            have hctx : ∀ u, (k, u) ∈ cd.requires.zip vals → u = v := by
              intro u hu
              have hcomp := forall2_comp hF (collectDeps_forall2 hc)
              obtain ⟨r0, hr0, hr0v⟩ := forall2_zip_mem hcomp hu
              have := hr0 rfl
              rw [this] at hr0v
              exact (Except.ok.inj hr0v).symm
            refine ⟨?_, fun he => absurd he htk, Δd ++ [(t, cd.requires.zip vals)], ?_, ?_⟩
            · show alookup ((t, cd.setup (cd.requires.zip vals)) :: m1) k
                = some (Except.ok v)
              simp only [alookup, if_neg htk]
              exact hk1
            · rw [hld, List.append_assoc]
            · intro p hp
              rcases List.mem_append.1 hp with h1 | h2
              · exact hΔd p h1
              · rw [List.mem_singleton] at h2
                subst h2
                exact ⟨htk, hctx⟩

/-- **C6.** When `options` binds a component name `k` to `v`, the load
call never invokes `k`'s setup (no log entry is for `k`), every setup
that runs receives `v` for `k` in its context, and loading `k` itself
settles with `v`: the options seed the session memoization table as
already-resolved values that pre-empt construction. -/
theorem c6_options_override :
    ∀ (ldr : Loader) (fuel : Nat) (target : String) (options : List (String × Value))
      (k : String) (v : Value) (log : Log) (out : Outcome),
      alookup options k = some v →
      loadCall ldr fuel target options = (log, out) →
      k ∉ log.map Prod.fst ∧
      (∀ n ctx, (n, ctx) ∈ log → ∀ u, (k, u) ∈ ctx → u = v) ∧
      (target = k → ∀ r, out = .settled r → r = .ok v) := by
  intro ldr fuel target options k v log out hopt hcall
  unfold loadCall at hcall
  by_cases hall : (ldr.virtuals.all (fun v => (alookup options v).isSome)) = true
  · rw [if_pos hall] at hcall
    have hk : alookup (options.map (fun p => (p.1, (Except.ok p.2 : Res)))) k
        = some (.ok v) := by
      rw [alookup_map_val (fun v => (Except.ok v : Res)), hopt]
      rfl
    cases hres : resolve ldr.sessionDir fuel
        (options.map (fun p => (p.1, (Except.ok p.2 : Res)))) [] target with
    | ok trip =>
      obtain ⟨m', l', r'⟩ := trip
      rw [hres] at hcall
      dsimp only at hcall
      have h1 : l' = log := congrArg Prod.fst hcall
      have h2 : Outcome.settled r' = out := congrArg Prod.snd hcall
      obtain ⟨-, hres2, Δ, hΔeq, hΔ⟩ := resolve_pres fuel _ [] target m' l' r' hk hres
      rw [List.nil_append] at hΔeq
      subst hΔeq
      subst h1
      refine ⟨?_, ?_, ?_⟩
      · intro hmem
        obtain ⟨p, hp, hpk⟩ := List.mem_map.1 hmem
        exact (hΔ p hp).1 hpk
      · intro n ctx hm u hu
        exact (hΔ (n, ctx) hm).2 u hu
      · intro htk r hr
        rw [← h2] at hr
        rw [← Outcome.settled.inj hr]
        exact hres2 htk
    | error er =>
      rw [hres] at hcall
      cases er with
      | typeErrorUndefined =>
        dsimp only at hcall
        have h1 : ([] : Log) = log := congrArg Prod.fst hcall
        have h2 := congrArg Prod.snd hcall
        subst h1
        exact ⟨by simp, by simp, fun _ r hr => Outcome.noConfusion (hr ▸ h2)⟩
      | fuelOut =>
        dsimp only at hcall
        have h1 : ([] : Log) = log := congrArg Prod.fst hcall
        have h2 := congrArg Prod.snd hcall
        subst h1
        exact ⟨by simp, by simp, fun _ r hr => Outcome.noConfusion (hr ▸ h2)⟩
  · rw [if_neg hall] at hcall
    have h1 : ([] : Log) = log := congrArg Prod.fst hcall
    have h2 := congrArg Prod.snd hcall
    subst h1
    exact ⟨by simp, by simp, fun _ r hr => Outcome.noConfusion (hr ▸ h2)⟩

/-- **C6 witness.** Overriding the non-virtual `db` (whose own setup
would fail) never runs `db`'s setup, and `target`'s setup receives the
supplied mock value. -/
theorem c6_witness :
    ∃ log out, loadCall ⟨ovrSession, [], []⟩ 10 "target" [("db", .num 9)] = (log, out) ∧
      "db" ∉ log.map Prod.fst ∧
      (∀ n ctx, (n, ctx) ∈ log → ∀ u, ("db", u) ∈ ctx → u = .num 9) := by
  have h := c6_options_override ⟨ovrSession, [], []⟩ 10 "target" [("db", .num 9)]
    "db" (.num 9) _ _ rfl rfl
  exact ⟨_, _, rfl, h.1, h.2.1⟩

theorem alookup_cons_isSome {α : Type} {m : List (String × α)} {t k : String} {r : α}
    (h : (alookup m k).isSome = true) :
    (alookup ((t, r) :: m) k).isSome = true := by
  simp only [alookup]
  by_cases htk : t = k
  · rw [if_pos htk]; rfl
  · rw [if_neg htk]; exact h

theorem resolveMany_rank {sdir : List (String × SDef)} {rank : String → Nat}
    {g : Memo → Log → String → Except RErr (Memo × Log × Res)}
    (hg : ∀ memo log t m' l' r, g memo log t = .ok (m', l', r) →
      (∀ kk vv, alookup memo kk = some vv → alookup m' kk = some vv) ∧
      (∀ kk, (alookup m' kk).isSome = true → (alookup memo kk).isSome = true ∨
        ((∃ cd, alookup sdir kk = some cd) ∧ rank kk ≤ rank t)) ∧
      (∃ Δ, l' = log ++ Δ ∧ (Δ.map Prod.fst).Nodup ∧
        ∀ p ∈ Δ, alookup memo p.1 = none ∧ (alookup m' p.1).isSome = true ∧
          rank p.1 ≤ rank t)) :
    ∀ (ds : List String) (memo : Memo) (log : Log) (m' : Memo) (l' : Log) (rs : List Res),
      resolveMany g memo log ds = .ok (m', l', rs) →
      (∀ kk vv, alookup memo kk = some vv → alookup m' kk = some vv) ∧
      (∀ kk, (alookup m' kk).isSome = true → (alookup memo kk).isSome = true ∨
        ((∃ cd, alookup sdir kk = some cd) ∧ ∃ d ∈ ds, rank kk ≤ rank d)) ∧
      (∃ Δ, l' = log ++ Δ ∧ (Δ.map Prod.fst).Nodup ∧
        ∀ p ∈ Δ, alookup memo p.1 = none ∧ (alookup m' p.1).isSome = true ∧
          ∃ d ∈ ds, rank p.1 ≤ rank d) := by
  intro ds
  induction ds with
  | nil =>
    intro memo log m' l' rs h
    simp only [resolveMany, Except.ok.injEq, Prod.mk.injEq] at h
    obtain ⟨rfl, rfl, rfl⟩ := h
    exact ⟨fun kk vv hv => hv, fun kk hs => Or.inl hs, [], by simp, by simp, by simp⟩
  | cons d ds ih =>
    intro memo log m' l' rs h
    simp only [resolveMany] at h
    cases hgd : g memo log d with
    | error er => rw [hgd] at h; exact Except.noConfusion h
    | ok trip =>
      obtain ⟨m1, l1, r1⟩ := trip
      rw [hgd] at h
      dsimp only at h
      cases hmany : resolveMany g m1 l1 ds with
      | error er => rw [hmany] at h; exact Except.noConfusion h
      | ok trip2 =>
        obtain ⟨m2, l2, rs2⟩ := trip2
        rw [hmany] at h
        dsimp only at h
        simp only [Except.ok.injEq, Prod.mk.injEq] at h
        obtain ⟨rfl, rfl, rfl⟩ := h
        obtain ⟨hp1, hn1, Δ1, hl1, hnd1, hΔ1⟩ := hg _ _ _ _ _ _ hgd
        obtain ⟨hp2, hn2, Δ2, hl2, hnd2, hΔ2⟩ := ih _ _ _ _ _ hmany
        refine ⟨fun kk vv hv => hp2 kk vv (hp1 kk vv hv), ?_, Δ1 ++ Δ2, ?_, ?_, ?_⟩
        · intro kk hs
          rcases hn2 kk hs with hs1 | ⟨hcd, d2, hd2, hle⟩
          · rcases hn1 kk hs1 with hs0 | ⟨hcd, hle⟩
            · exact Or.inl hs0
            · exact Or.inr ⟨hcd, d, List.mem_cons_self _ _, hle⟩
          · exact Or.inr ⟨hcd, d2, List.mem_cons_of_mem _ hd2, hle⟩
        · rw [hl2, hl1, List.append_assoc]
        · rw [List.map_append]
          apply List.Nodup.append hnd1 hnd2
          intro a ha1 ha2
          obtain ⟨p1, hp1m, hp1k⟩ := List.mem_map.1 ha1
          obtain ⟨p2m, hp2m, hp2k⟩ := List.mem_map.1 ha2
          have hsome : (alookup m1 a).isSome = true := by
            rw [← hp1k]; exact (hΔ1 p1 hp1m).2.1
          have hnone : alookup m1 a = none := by
            rw [← hp2k]; exact (hΔ2 p2m hp2m).1
          rw [hnone] at hsome
          exact Bool.noConfusion hsome
        · intro p hp
          rcases List.mem_append.1 hp with h1 | h2
          · obtain ⟨ha, hb, hc⟩ := hΔ1 p h1
            refine ⟨ha, ?_, d, List.mem_cons_self _ _, hc⟩
            have : ∀ vv, alookup m1 p.1 = some vv → alookup m2 p.1 = some vv :=
              fun vv => hp2 p.1 vv
            cases hzz : alookup m1 p.1 with
            | none => rw [hzz] at hb; exact Bool.noConfusion hb
            | some vv => rw [this vv hzz]; rfl
          · obtain ⟨ha, hb, d2, hd2, hc⟩ := hΔ2 p h2
            refine ⟨?_, hb, d2, List.mem_cons_of_mem _ hd2, hc⟩
            cases hzz : alookup memo p.1 with
            | none => rfl
            | some vv => rw [hp1 p.1 vv hzz] at ha; exact Option.noConfusion ha

theorem resolve_rank {sdir : List (String × SDef)} {rank : String → Nat}
    (hrank : Ranked sdir rank) :
    ∀ (f : Nat) (memo : Memo) (log : Log) (t : String) (m' : Memo) (l' : Log) (r : Res),
      resolve sdir f memo log t = .ok (m', l', r) →
      (∀ kk vv, alookup memo kk = some vv → alookup m' kk = some vv) ∧
      (∀ kk, (alookup m' kk).isSome = true → (alookup memo kk).isSome = true ∨
        ((∃ cd, alookup sdir kk = some cd) ∧ rank kk ≤ rank t)) ∧
      (∃ Δ, l' = log ++ Δ ∧ (Δ.map Prod.fst).Nodup ∧
        ∀ p ∈ Δ, alookup memo p.1 = none ∧ (alookup m' p.1).isSome = true ∧
          rank p.1 ≤ rank t) := by
  intro f
  induction f with
  | zero =>
    intro memo log t m' l' r h
    simp only [resolve] at h
    cases hm : alookup memo t with
    | some r0 =>
      rw [hm] at h
      dsimp only at h
      simp only [Except.ok.injEq, Prod.mk.injEq] at h
      obtain ⟨rfl, rfl, rfl⟩ := h
      exact ⟨fun kk vv hv => hv, fun kk hs => Or.inl hs, [], by simp, by simp, by simp⟩
    | none => rw [hm] at h; exact Except.noConfusion h
  | succ f ih =>
    intro memo log t m' l' r h
    simp only [resolve] at h
    cases hm : alookup memo t with
    | some r0 =>
      rw [hm] at h
      dsimp only at h
      simp only [Except.ok.injEq, Prod.mk.injEq] at h
      obtain ⟨rfl, rfl, rfl⟩ := h
      exact ⟨fun kk vv hv => hv, fun kk hs => Or.inl hs, [], by simp, by simp, by simp⟩
    | none =>
      rw [hm] at h
      dsimp only at h
      cases hd : alookup sdir t with
      | none => rw [hd] at h; exact Except.noConfusion h
      | some cd =>
        rw [hd] at h
        dsimp only at h
        have hstep : ∀ dd ∈ cd.requires, rank dd < rank t :=
          fun dd hdd => hrank (t, cd) (alookup_mem hd) dd hdd
        cases hmany : resolveMany (resolve sdir f) memo log cd.requires with
        | error er => rw [hmany] at h; exact Except.noConfusion h
        | ok trip =>
          obtain ⟨m1, l1, rs⟩ := trip
          rw [hmany] at h
          dsimp only at h
          obtain ⟨hp1, hn1, Δd, hld, hndd, hΔd⟩ := resolveMany_rank ih _ _ _ _ _ _ hmany
          have hΔlt : ∀ p ∈ Δd, rank p.1 < rank t := by
            intro p hp
            obtain ⟨-, -, dd, hdd, hle⟩ := hΔd p hp
            exact Nat.lt_of_le_of_lt hle (hstep dd hdd)
          have hm1t : ∀ kk, (alookup m1 kk).isSome = true →
              (alookup memo kk).isSome = true ∨
              ((∃ c, alookup sdir kk = some c) ∧ rank kk < rank t) := by
            intro kk hs
            rcases hn1 kk hs with h0 | ⟨hcd, dd, hdd, hle⟩
            · exact Or.inl h0
            · exact Or.inr ⟨hcd, Nat.lt_of_le_of_lt hle (hstep dd hdd)⟩
          cases hc : collectDeps rs with
          | error e1 =>
            rw [hc] at h
            dsimp only at h
            simp only [Except.ok.injEq, Prod.mk.injEq] at h
            obtain ⟨rfl, rfl, rfl⟩ := h
            refine ⟨?_, ?_, Δd, hld, hndd, ?_⟩
            · intro kk vv hv
              have hne : t ≠ kk := by
                intro he
                rw [← he, hm] at hv
                exact Option.noConfusion hv
              show alookup ((t, Except.error e1) :: m1) kk = some vv
              simp only [alookup, if_neg hne]
              exact hp1 kk vv hv
            · intro kk hs
              by_cases hkt : kk = t
              · exact Or.inr ⟨⟨cd, hkt ▸ hd⟩, hkt ▸ Nat.le_refl _⟩
              · have hs1 : (alookup m1 kk).isSome = true := by
                  have hne : ¬(t = kk) := fun he => hkt he.symm
                  simp only [alookup, if_neg hne] at hs
                  exact hs
                rcases hm1t kk hs1 with h0 | ⟨hcd, hlt⟩
                · exact Or.inl h0
                · exact Or.inr ⟨hcd, Nat.le_of_lt hlt⟩
            · intro p hp
              obtain ⟨ha, hb, -⟩ := hΔd p hp
              exact ⟨ha, alookup_cons_isSome hb, Nat.le_of_lt (hΔlt p hp)⟩
          | ok vals =>
            rw [hc] at h
            dsimp only at h
            simp only [Except.ok.injEq, Prod.mk.injEq] at h
            obtain ⟨rfl, rfl, rfl⟩ := h
            refine ⟨?_, ?_, Δd ++ [(t, cd.requires.zip vals)], ?_, ?_, ?_⟩
            · intro kk vv hv
              have hne : t ≠ kk := by
                intro he
                rw [← he, hm] at hv
                exact Option.noConfusion hv
              show alookup ((t, _) :: m1) kk = some vv
              simp only [alookup, if_neg hne]
              exact hp1 kk vv hv
            · intro kk hs
              by_cases hkt : kk = t
              · exact Or.inr ⟨⟨cd, hkt ▸ hd⟩, hkt ▸ Nat.le_refl _⟩
              · have hs1 : (alookup m1 kk).isSome = true := by
                  have hne : ¬(t = kk) := fun he => hkt he.symm
                  simp only [alookup, if_neg hne] at hs
                  exact hs
                rcases hm1t kk hs1 with h0 | ⟨hcd, hlt⟩
                · exact Or.inl h0
                · exact Or.inr ⟨hcd, Nat.le_of_lt hlt⟩
            · rw [hld, List.append_assoc]
            · rw [List.map_append]
              apply List.Nodup.append hndd (by simp)
              intro a ha1 ha2
              simp only [List.map_cons, List.map_nil, List.mem_singleton] at ha2
              obtain ⟨p1, hp1m, hp1k⟩ := List.mem_map.1 ha1
              have := hΔlt p1 hp1m
              rw [hp1k, ha2] at this
              exact Nat.lt_irrefl _ this
            · intro p hp
              rcases List.mem_append.1 hp with h1 | h2
              · obtain ⟨ha, hb, -⟩ := hΔd p h1
                exact ⟨ha, alookup_cons_isSome hb, Nat.le_of_lt (hΔlt p h1)⟩
              · rw [List.mem_singleton] at h2
                subst h2
                refine ⟨hm, ?_, Nat.le_refl _⟩
                show (alookup ((t, _) :: m1) t).isSome = true
                simp only [alookup, if_pos rfl]
                rfl

/-- **C1.** In a session over a validated (acyclic, as witnessed by a
rank function) directory, every load call invokes each distinct
component's setup at most once; in the diamond `A requires [B, C]`,
`B requires [D]`, `C requires [D]`, loading `A` invokes `D`'s setup
exactly once and `B` and `C` receive the same resolved `D` value. -/
theorem c1_setup_at_most_once :
    (∀ (ldr : Loader) (rank : String → Nat), Ranked ldr.sessionDir rank →
      ∀ (fuel : Nat) (target : String) (options : List (String × Value))
        (log : Log) (out : Outcome),
        loadCall ldr fuel target options = (log, out) →
        (log.map Prod.fst).Nodup) ∧
    (loaderConstruct diamondRaw [] = .ok diamondLoader ∧
     ∃ log r, loadCall diamondLoader 10 "A" [] = (log, .settled (.ok r)) ∧
       (log.map Prod.fst).count "D" = 1 ∧
       ∃ bctx cctx dv, ("B", bctx) ∈ log ∧ ("C", cctx) ∈ log ∧
         alookup bctx "D" = some dv ∧ alookup cctx "D" = some dv) := by
  constructor
  · intro ldr rank hrank fuel target options log out hcall
    unfold loadCall at hcall
    by_cases hall : (ldr.virtuals.all (fun v => (alookup options v).isSome)) = true
    · rw [if_pos hall] at hcall
      cases hres : resolve ldr.sessionDir fuel
          (options.map (fun p => (p.1, (Except.ok p.2 : Res)))) [] target with
      | ok trip =>
        obtain ⟨m', l', r'⟩ := trip
        rw [hres] at hcall
        dsimp only at hcall
        have h1 : l' = log := congrArg Prod.fst hcall
        obtain ⟨-, -, Δ, hΔeq, hnd, -⟩ := resolve_rank hrank fuel _ [] target m' l' r' hres
        rw [List.nil_append] at hΔeq
        rw [← h1, hΔeq]
        exact hnd
      | error er =>
        rw [hres] at hcall
        cases er with
        | typeErrorUndefined =>
          have h1 : ([] : Log) = log := congrArg Prod.fst hcall
          rw [← h1]
          exact List.nodup_nil
        | fuelOut =>
          have h1 : ([] : Log) = log := congrArg Prod.fst hcall
          rw [← h1]
          exact List.nodup_nil
    · rw [if_neg hall] at hcall
      have h1 : ([] : Log) = log := congrArg Prod.fst hcall
      rw [← h1]
      exact List.nodup_nil
  · refine ⟨rfl, ?_⟩
    refine ⟨_, _, rfl, ?_, ?_⟩
    · decide
    · exact ⟨[("D", Value.num 42)], [("D", Value.num 42)], Value.num 42,
        by decide, by decide, rfl, rfl⟩

/-- **C1 witness.** The at-most-once clause applied to the diamond
loader with its rank function. -/
theorem c1_witness :
    (((loadCall diamondLoader 10 "A" []).1).map Prod.fst).Nodup :=
  c1_setup_at_most_once.1 diamondLoader diamondRank (by unfold Ranked; decide) 10 "A" [] _ _ rfl

end TcLoader
